import Mathlib

/-!
# smali2java: the per-file translation engine

A shallow embedding of `smali2java.go`.

* A Go `string` is a sequence of bytes: `len`, indexing and slicing count bytes, so
  strings are modelled as `List UInt8`, and `str` gives the UTF-8 bytes of a literal.
* A Go run-time panic (index out of range, slice bounds out of range) aborts the
  process; functions that can panic return `Except Panic _`.
* `convertLine` mutates the `JavaFile` it is handed; here it returns the new value.
* The three functions of Go's `strings` package that the program calls (`Fields`,
  `Split`, `Join`) are modelled in the namespace `strings` after their documentation.
-/

namespace Smali2Java

/-- A Go string: an immutable sequence of bytes. -/
abbrev GoString := List UInt8

/-- The bytes (UTF-8) of a string literal. -/
def str (s : String) : GoString := s.toList.flatMap String.utf8EncodeChar

/-- The two run-time panics the program can raise. -/
inductive Panic where
  | indexOutOfRange
  | sliceOutOfRange
  deriving DecidableEq

deriving instance DecidableEq for Except

/-- Go's `len`, of type `int`. -/
def len {α : Type} (xs : List α) : Int := (xs.length : Int)

/-- The index expression `xs[i]`: panics unless `0 ≤ i < len(xs)`. -/
def index {α : Type} (xs : List α) (i : Int) : Except Panic α :=
  if i < 0 then .error .indexOutOfRange
  else match xs.get? i.toNat with
    | some x => .ok x
    | none => .error .indexOutOfRange

/-- The assignment `xs[i] = x`: panics unless `0 ≤ i < len(xs)`. -/
def setIndex {α : Type} (xs : List α) (i : Int) (x : α) : Except Panic (List α) :=
  if 0 ≤ i ∧ i < len xs then .ok (xs.set i.toNat x) else .error .indexOutOfRange

/-- The slice expression `s[lo:hi]` on a string: panics unless `0 ≤ lo ≤ hi ≤ len(s)`. -/
def slice (s : GoString) (lo hi : Int) : Except Panic GoString :=
  if 0 ≤ lo ∧ lo ≤ hi ∧ hi ≤ len s then .ok ((s.drop lo.toNat).take (hi - lo).toNat)
  else .error .sliceOutOfRange

namespace strings

/-- Scan for `strings.Split`: the first argument counts the bytes of a separator
occurrence that are still to be skipped. -/
def splitAux (sep : GoString) : Nat → GoString → List GoString
  | _, [] => [[]]
  | skip + 1, _ :: rest => splitAux sep skip rest
  | 0, b :: rest =>
    if sep.isPrefixOf (b :: rest) then [] :: splitAux sep (sep.length - 1) rest
    else match splitAux sep 0 rest with
      | [] => [[b]]
      | p :: ps => (b :: p) :: ps

/-- Go's `strings.Split(s, sep)` for a non-empty separator: the substrings of `s`
between the successive, leftmost, non-overlapping occurrences of `sep`. (With an
empty separator Go explodes `s` into UTF-8 sequences; the program never does that,
its separators are the literals `/`, `->`, `(`, `)` and `:`.) -/
def Split (s sep : GoString) : List GoString := splitAux sep 0 s

/-- Go's `strings.Join(elems, sep)`. -/
def Join : List GoString → GoString → GoString
  | [], _ => []
  | [a], _ => a
  | a :: b :: rest, sep => a ++ sep ++ Join (b :: rest) sep

/-- The code points for which Go's `unicode.IsSpace` holds: `\t \n \v \f \r`, space,
U+0085, U+00A0, and the other code points with the White_Space property. -/
def whiteSpace : List Nat :=
  [0x09, 0x0A, 0x0B, 0x0C, 0x0D, 0x20, 0x85, 0xA0, 0x1680,
   0x2000, 0x2001, 0x2002, 0x2003, 0x2004, 0x2005, 0x2006, 0x2007, 0x2008, 0x2009, 0x200A,
   0x2028, 0x2029, 0x202F, 0x205F, 0x3000]

/-- The UTF-8 encodings of the code points of `whiteSpace`, in the same order. -/
def spaceEncodings : List GoString :=
  [[0x09], [0x0A], [0x0B], [0x0C], [0x0D], [0x20], [0xC2, 0x85], [0xC2, 0xA0],
   [0xE1, 0x9A, 0x80],
   [0xE2, 0x80, 0x80], [0xE2, 0x80, 0x81], [0xE2, 0x80, 0x82], [0xE2, 0x80, 0x83],
   [0xE2, 0x80, 0x84], [0xE2, 0x80, 0x85], [0xE2, 0x80, 0x86], [0xE2, 0x80, 0x87],
   [0xE2, 0x80, 0x88], [0xE2, 0x80, 0x89], [0xE2, 0x80, 0x8A],
   [0xE2, 0x80, 0xA8], [0xE2, 0x80, 0xA9], [0xE2, 0x80, 0xAF], [0xE2, 0x81, 0x9F],
   [0xE3, 0x80, 0x80]]

/-- The width in bytes of the white-space character encoded at the head of `s`, and
`0` when `s` does not start with one. Every encoding starts with an ASCII byte or a
UTF-8 lead byte, and Go's decoder starts a rune at every such byte, so a white-space
rune is decoded at a position exactly when one of the encodings starts there. -/
def spaceWidth (s : GoString) : Nat :=
  match spaceEncodings.find? (fun e => e.isPrefixOf s) with
  | some e => e.length
  | none => 0

/-- Scan for `strings.Fields`: `skip` counts the bytes of the current white-space
character still to be skipped, `cur` is the field being read (empty between
fields). -/
def fieldsAux : Nat → GoString → GoString → List GoString
  | _, cur, [] => if cur = [] then [] else [cur]
  | skip + 1, cur, _ :: rest => fieldsAux skip cur rest
  | 0, cur, b :: rest =>
    match spaceWidth (b :: rest) with
    | 0 => fieldsAux 0 (cur ++ [b]) rest
    | w + 1 => if cur = [] then fieldsAux w [] rest else cur :: fieldsAux w [] rest

/-- Go's `strings.Fields(s)`: the maximal runs of bytes of `s` that hold no
white-space character (as defined by `unicode.IsSpace`), in order. -/
def Fields (s : GoString) : List GoString := fieldsAux 0 [] s

end strings

/-- The Go type `Line`: one rendered line, as its output tokens. -/
structure Line where
  l : List GoString
  deriving DecidableEq

/-- The Go type `JavaFile`: the output unit of one input file. The zero value
`JavaFile{}` is `{}`. -/
structure JavaFile where
  lines : List Line := []
  imports : List GoString := []
  «extends» : GoString := []
  implements : List GoString := []
  className : GoString := []
  deriving DecidableEq

/-- The Go function `getClassName` (the Descriptor Decoder). -/
def getClassName (jvmName : GoString) : Except Panic GoString := do
  let splitJvmName := strings.Split jvmName (str "/")
  let className ← index splitJvmName (len splitJvmName - 1)
  if len className = 1 then
    let c ← index className 0
    if c = 'I'.toUInt8 then pure (str "Integer")
    else if c = 'Z'.toUInt8 then pure (str "Boolean")
    else if c = 'J'.toUInt8 then pure (str "Long")
    else if c = 'F'.toUInt8 then pure (str "Float")
    else if c = 'D'.toUInt8 then pure (str "Double")
    else if c = 'V'.toUInt8 then pure (str "void")
    else pure (str "Object")
  else
    let joinedName := strings.Join splitJvmName (str ".")
    slice joinedName 1 (len joinedName - 1)

/-- The Go function `parseVariableName`: drops the last byte. -/
def parseVariableName (variableName : GoString) : Except Panic GoString :=
  slice variableName 0 (len variableName - 1)

/-- The Go function `returnObject`. -/
def returnObject (javaFile : JavaFile) (splitLine : List GoString) : Except Panic JavaFile := do
  let variableName ← parseVariableName (← index splitLine 1)
  let line : Line := ⟨[str "return ", variableName]⟩
  pure { javaFile with lines := javaFile.lines ++ [line] }

/-- The Go function `invokeStatic`. -/
def invokeStatic (javaFile : JavaFile) (splitLine : List GoString) : Except Panic JavaFile := do
  let «variables» ← index splitLine 1
  let «variables» ← slice «variables» 1 (len «variables» - 2)
  let classNameAndMethod ← index splitLine 2
  let classNameAndMethodSplit := strings.Split classNameAndMethod (str "->")
  let methodAndArgumentsSplit := strings.Split (← index classNameAndMethodSplit 1) (str "(")
  let className ← getClassName (← index classNameAndMethodSplit 0)
  let method ← index methodAndArgumentsSplit 0
  let line : Line := ⟨[className, str ".", method, str "(", «variables», str ");"]⟩
  pure { javaFile with lines := javaFile.lines ++ [line] }

/-- The Go function `staticGet` (no case of `convertLine` calls it). -/
def staticGet (javaFile : JavaFile) (splitLine : List GoString) : Except Panic JavaFile := do
  let variableName ← parseVariableName (← index splitLine 1)
  let classNameAndMethod := strings.Split (← index splitLine 2) (str "->")
  let className ← getClassName (← index classNameAndMethod 0)
  let methodNameAndReturnValue := strings.Split (← index classNameAndMethod 1) (str ":")
  let methodName ← index methodNameAndReturnValue 0
  let line : Line := ⟨[variableName, str "=", className, str ".", methodName, str "();"]⟩
  pure { javaFile with lines := javaFile.lines ++ [line] }

/-- The Go function `finalString`. -/
def finalString (javaFile : JavaFile) (splitLine : List GoString) : Except Panic JavaFile := do
  let variableName ← index splitLine 1
  let variableName ← slice variableName 0 (len variableName - 1)
  let variableValue ← index splitLine 2
  let line : Line := ⟨[str "final String", variableName, str "=", variableValue, str ";"]⟩
  pure { javaFile with lines := javaFile.lines ++ [line] }

/-- The Go function `parseMethod`. -/
def parseMethod (javaFile : JavaFile) (splitLine : List GoString) : Except Panic JavaFile := do
  let accessor ← index splitLine 1
  let (static, methodNameAndReturnType) ←
    (do
      if (← index splitLine 2) = str "static" then
        pure (str "static", ← index splitLine 3)
      else
        pure (str "", ← index splitLine 2) : Except Panic (GoString × GoString))
  let arguments : List GoString := []
  let (returnValue, method) ←
    (do
      if methodNameAndReturnType = str "constructor" then
        pure (str "", javaFile.className)
      else
        let methodAndReturnType := strings.Split methodNameAndReturnType (str ")")
        let methodAndArguments := strings.Split (← index methodAndReturnType 0) (str "(")
        let method ← index methodAndArguments 0
        let returnValue ← getClassName (← index methodAndReturnType 1)
        pure (returnValue, method) : Except Panic (GoString × GoString))
  let line : Line :=
    ⟨[accessor, static, returnValue, method, str "(", strings.Join arguments (str ","),
      str ")", str "\x7b"]⟩
  pure { javaFile with lines := javaFile.lines ++ [line] }

/-- The Go function `parseField`. -/
def parseField (javaFile : JavaFile) (splitLine : List GoString) : Except Panic JavaFile := do
  let (static, memberAndClass) ←
    (do
      if (← index splitLine 2) = str "static" then
        pure (str "static", strings.Split (← index splitLine 3) (str ":"))
      else
        pure (str "", strings.Split (← index splitLine 2) (str ":")) :
      Except Panic (GoString × List GoString))
  let accessor ← index splitLine 1
  let className ← getClassName (← index memberAndClass 1)
  let memberName ← index memberAndClass 0
  let line : Line := ⟨[accessor, static, className, memberName, str ";"]⟩
  pure { javaFile with lines := javaFile.lines ++ [line] }

/-- The Go function `parseSuper`. -/
def parseSuper (javaFile : JavaFile) (splitLine : List GoString) : Except Panic JavaFile := do
  let super ← getClassName (← index splitLine 1)
  if super ≠ str "Object" then
    let classDeclarationLine := (← index javaFile.lines (len javaFile.lines - 1)).l
    let accessor ← index classDeclarationLine 0
    let name ← index classDeclarationLine 2
    let lines ← setIndex javaFile.lines (len javaFile.lines - 1)
      ⟨[accessor, str "class", name, str "extends", super]⟩
    pure { javaFile with lines := lines }
  else
    pure javaFile

/-- The Go function `convertLine` (the Instruction Dispatcher). -/
def convertLine (javaFile : JavaFile) (line : GoString) : Except Panic JavaFile := do
  let splitLine := strings.Fields line
  if len splitLine = 0 then
    pure javaFile
  else
    let opcode ← index splitLine 0
    if opcode = str ".class" then
      let accessor ← index splitLine 1
      let name ← getClassName (← index splitLine 2)
      let line : Line := ⟨[accessor, str "class", name, str "\x7b"]⟩
      pure { javaFile with lines := javaFile.lines ++ [line], className := name }
    else if opcode = str "return-void" then
      let line : Line := ⟨[str "return;"]⟩
      pure { javaFile with lines := javaFile.lines ++ [line] }
    else if opcode = str ".end" then
      let line : Line := ⟨[str "\x7d"]⟩
      pure { javaFile with lines := javaFile.lines ++ [line] }
    else if opcode = str ".method" then parseMethod javaFile splitLine
    else if opcode = str ".field" then parseField javaFile splitLine
    else if opcode = str ".super" then parseSuper javaFile splitLine
    else if opcode = str "const-string" then finalString javaFile splitLine
    else if opcode = str "invoke-static" then invokeStatic javaFile splitLine
    else if opcode = str "return-object" then returnObject javaFile splitLine
    else
      let line : Line := ⟨str "//" :: splitLine⟩
      pure { javaFile with lines := javaFile.lines ++ [line] }

/-- The scanner loop of the Go function `convertSmali`, from any output unit: every
line of the file goes through `convertLine`, in order; a panic ends the run. -/
def convertLines (javaFile : JavaFile) : List GoString → Except Panic JavaFile
  | [] => pure javaFile
  | line :: rest => do
    let javaFile ← convertLine javaFile line
    convertLines javaFile rest

/-- The text `printJavaFile` prints for one line: its tokens joined by one space. -/
def render (line : Line) : GoString := strings.Join line.l (str " ")

/-- The Go function `printJavaFile`, as the list of the lines it prints. -/
def printJavaFile (javaFile : JavaFile) : List GoString := javaFile.lines.map render

/-- The Go function `convertSmali` on the lines of one file: translation starts from
`JavaFile{}`, and the finished unit is printed. -/
def convertSmali (file : List GoString) : Except Panic (List GoString) := do
  let javaFile ← convertLines {} file
  pure (printJavaFile javaFile)

/-! ## Auxiliary definitions used in the statements -/

/-- Puts `x` behind the last element of a list of strings. -/
def appendLast (x : GoString) : List GoString → List GoString
  | [] => []
  | [a] => [a ++ x]
  | a :: b :: rest => a :: appendLast x (b :: rest)

/-- Puts `p` in front of the first element of a list of strings. -/
def prependHead (p : GoString) : List GoString → List GoString
  | [] => []
  | a :: rest => (p ++ a) :: rest

/-- Whether a white-space character (in the sense of `strings.Fields`) starts at some
byte of `s`. -/
def hasSpace : GoString → Bool
  | [] => false
  | b :: rest => strings.spaceWidth (b :: rest) != 0 || hasSpace rest

/-- One token of a line: a non-empty string free of white space. -/
def isToken (t : GoString) : Bool := !t.isEmpty && !hasSpace t

/-- The mnemonics `convertLine` has a case for. -/
def mnemonics : List GoString :=
  [str ".class", str ".super", str ".field", str ".method", str ".end", str "return-void",
   str "return-object", str "const-string", str "invoke-static"]

/-- Scan for `isBlank`, with the same skip counter as `strings.fieldsAux`. -/
def blankAux : Nat → GoString → Bool
  | _, [] => true
  | skip + 1, _ :: rest => blankAux skip rest
  | 0, b :: rest =>
    match strings.spaceWidth (b :: rest) with
    | 0 => false
    | w + 1 => blankAux w rest

/-- Whether a line is empty or consists only of white-space characters. -/
def isBlank (s : GoString) : Bool := blankAux 0 s

/-! ## Go primitives -/

theorem index_nat {α : Type} (xs : List α) (n : Nat) :
    index xs (n : Int) = match xs.get? n with
      | some x => .ok x
      | none => .error .indexOutOfRange := by
  unfold index
  have h : ¬ ((n : Int) < 0) := by omega
  simp [h]

theorem index_zero_cons {α : Type} (x : α) (xs : List α) : index (x :: xs) 0 = .ok x := by
  simpa using index_nat (x :: xs) 0

theorem index_one_cons {α : Type} (x y : α) (xs : List α) : index (x :: y :: xs) 1 = .ok y := by
  simpa using index_nat (x :: y :: xs) 1

theorem index_two_cons {α : Type} (x y z : α) (xs : List α) :
    index (x :: y :: z :: xs) 2 = .ok z := by
  simpa using index_nat (x :: y :: z :: xs) 2

theorem index_three_cons {α : Type} (x y z w : α) (xs : List α) :
    index (x :: y :: z :: w :: xs) 3 = .ok w := by
  simpa using index_nat (x :: y :: z :: w :: xs) 3

theorem index_last {α : Type} (xs : List α) (h : xs ≠ []) :
    index xs (len xs - 1) = .ok (xs.getLast h) := by
  have hpos : 0 < xs.length := List.length_pos.mpr h
  have hcast : (len xs - 1 : Int) = ((xs.length - 1 : Nat) : Int) := by
    unfold len; omega
  rw [hcast, index_nat]
  have hget : xs.get? (xs.length - 1) = some (xs.getLast h) := by
    rw [List.getLast_eq_getElem]
    simp [List.getElem?_eq_getElem, hpos]
  rw [hget]

theorem slice_middle (a b c : GoString) :
    slice (a ++ b ++ c) (len a) (len (a ++ b ++ c) - len c) = .ok b := by
  unfold slice len
  have h : (0 : Int) ≤ (a.length : Int) ∧ (a.length : Int) ≤ ((a ++ b ++ c).length : Int) - (c.length : Int)
      ∧ ((a ++ b ++ c).length : Int) - (c.length : Int) ≤ ((a ++ b ++ c).length : Int) := by
    simp only [List.length_append]; push_cast; omega
  rw [if_pos h]
  have h2 : (((a ++ b ++ c).length : Int) - (c.length : Int) - (a.length : Int)).toNat = b.length := by
    simp only [List.length_append]; push_cast; omega
  rw [h2]
  simp [List.append_assoc]

/-! ## `strings.Split` on a one-byte separator, `strings.Join`, and object descriptors -/

theorem splitAux_ne_nil (sep : GoString) (k : Nat) (s : GoString) :
    strings.splitAux sep k s ≠ [] := by
  induction s generalizing k with
  | nil => simp [strings.splitAux]
  | cons b rest ih =>
    cases k with
    | succ k => simpa [strings.splitAux] using ih k
    | zero =>
      unfold strings.splitAux
      split
      · simp
      · split <;> simp

theorem splitAux_byte_cons (c b : UInt8) (rest : GoString) :
    strings.splitAux [c] 0 (b :: rest) =
      if b = c then [] :: strings.splitAux [c] 0 rest
      else match strings.splitAux [c] 0 rest with
        | [] => [[b]]
        | p :: ps => (b :: p) :: ps := by
  rw [strings.splitAux]
  by_cases h : b = c
  · subst h; simp [List.isPrefixOf]
  · have h2 : ¬ c = b := fun e => h e.symm
    simp [List.isPrefixOf, h, h2]

/-- A piece free of the separator byte, followed by the separator, is split off whole. -/
theorem split_byte_append (c : UInt8) (a rest : GoString) (ha : c ∉ a) :
    strings.Split (a ++ c :: rest) [c] = a :: strings.Split rest [c] := by
  unfold strings.Split
  induction a with
  | nil => simp [splitAux_byte_cons]
  | cons b a ih =>
    have hb : ¬ b = c := fun e => ha (by simp [e])
    have ha2 : c ∉ a := fun e => ha (by simp [e])
    simp only [List.cons_append, splitAux_byte_cons, if_neg hb, ih ha2]

/-- A string free of the separator byte is its own single piece. -/
theorem split_byte_none (c : UInt8) (a : GoString) (ha : c ∉ a) :
    strings.Split a [c] = [a] := by
  unfold strings.Split
  induction a with
  | nil => simp [strings.splitAux]
  | cons b a ih =>
    have hb : ¬ b = c := fun e => ha (by simp [e])
    have ha2 : c ∉ a := fun e => ha (by simp [e])
    simp only [splitAux_byte_cons, if_neg hb, ih ha2]

theorem appendLast_ne_nil (x : GoString) (segs : List GoString) (h : segs ≠ []) :
    appendLast x segs ≠ [] := by
  match segs, h with
  | [_], _ => simp [appendLast]
  | _ :: _ :: _, _ => simp [appendLast]

theorem join_appendLast (x sep : GoString) (segs : List GoString) (h : segs ≠ []) :
    strings.Join (appendLast x segs) sep = strings.Join segs sep ++ x := by
  induction segs with
  | nil => exact absurd rfl h
  | cons a rest ih =>
    cases rest with
    | nil => simp [appendLast, strings.Join]
    | cons b rest =>
      have hne := appendLast_ne_nil x (b :: rest) (by simp)
      have e := ih (by simp)
      cases hq : appendLast x (b :: rest) with
      | nil => exact absurd hq hne
      | cons q qs =>
        rw [hq] at e
        simp only [appendLast, hq, strings.Join, e, List.append_assoc]

theorem join_prependHead (p sep : GoString) (segs : List GoString) (h : segs ≠ []) :
    strings.Join (prependHead p segs) sep = p ++ strings.Join segs sep := by
  match segs, h with
  | [a], _ => simp [prependHead, strings.Join]
  | a :: b :: rest, _ => simp [prependHead, strings.Join, List.append_assoc]

theorem getLast_appendLast (x : GoString) (segs : List GoString) (h : segs ≠ []) :
    (appendLast x segs).getLast (appendLast_ne_nil x segs h) = segs.getLast h ++ x := by
  induction segs with
  | nil => exact absurd rfl h
  | cons a rest ih =>
    cases rest with
    | nil => simp [appendLast]
    | cons b rest =>
      have e := ih (by simp)
      simp only [appendLast] at e ⊢
      rw [List.getLast_cons (appendLast_ne_nil x (b :: rest) (by simp)), e]
      simp

/-- Splitting `p ++ s1 ++ c ++ ... ++ c ++ sn ++ x` at the byte `c`, when `c` occurs in
none of the parts. -/
theorem split_join_wrapped (c : UInt8) (p x : GoString) (segs : List GoString)
    (h : segs ≠ []) (hp : c ∉ p) (hx : c ∉ x) (hs : ∀ s ∈ segs, c ∉ s) :
    strings.Split (p ++ strings.Join segs [c] ++ x) [c] = prependHead p (appendLast x segs) := by
  induction segs generalizing p with
  | nil => exact absurd rfl h
  | cons a rest ih =>
    have ha : c ∉ a := hs a (by simp)
    cases rest with
    | nil =>
      simp only [strings.Join, appendLast, prependHead]
      rw [split_byte_none]
      · simp
      · simp [hp, ha, hx]
    | cons b rest =>
      have e := ih [] (by simp) (by simp) (fun s hm => hs s (by simp at hm ⊢; tauto))
      have hne := appendLast_ne_nil x (b :: rest) (by simp)
      have hsplit : p ++ strings.Join (a :: b :: rest) [c] ++ x
          = (p ++ a) ++ c :: ([] ++ strings.Join (b :: rest) [c] ++ x) := by
        simp [strings.Join, List.append_assoc]
      rw [hsplit, split_byte_append c (p ++ a) _ (by simp [hp, ha]), e]
      cases hq : appendLast x (b :: rest) with
      | nil => exact absurd hq hne
      | cons q qs => simp [appendLast, prependHead, hq]

theorem getLast_wrapped_length (p x : GoString) (segs : List GoString) (h : segs ≠ [])
    (hw : prependHead p (appendLast x segs) ≠ []) (hx : 0 < x.length)
    (hlast : segs.getLast h ≠ []) :
    2 ≤ ((prependHead p (appendLast x segs)).getLast hw).length := by
  match segs, h with
  | [a], _ =>
    have hpos : 0 < a.length := List.length_pos.mpr (by simpa using hlast)
    simp only [appendLast, prependHead, List.getLast_singleton, List.length_append]
    omega
  | a :: b :: rest, _ =>
    have hne := appendLast_ne_nil x (b :: rest) (by simp)
    have e := getLast_appendLast x (b :: rest) (by simp)
    rw [List.getLast_cons (by simp)] at hlast
    have hpos := List.length_pos.mpr hlast
    simp only [appendLast, prependHead]
    rw [List.getLast_cons hne, e, List.length_append]
    omega

/-- C1: for a non-empty list of path segments, each free of `/` and the last one
non-empty, `getClassName` applied to the object descriptor made of `L`, the segments
joined by `/`, and `;` returns the segments joined by `.`. -/
theorem getClassName_object_descriptor (segs : List GoString) (hne : segs ≠ [])
    (hslash : ∀ s ∈ segs, '/'.toUInt8 ∉ s) (hlast : segs.getLast hne ≠ []) :
    getClassName (str "L" ++ strings.Join segs (str "/") ++ str ";")
      = .ok (strings.Join segs (str ".")) := by
  have hsl : str "/" = ['/'.toUInt8] := by decide
  have hL : '/'.toUInt8 ∉ str "L" := by decide
  have hsemi : '/'.toUInt8 ∉ str ";" := by decide
  have hw : prependHead (str "L") (appendLast (str ";") segs) ≠ [] := by
    have := appendLast_ne_nil (str ";") segs hne
    cases hq : appendLast (str ";") segs with
    | nil => exact absurd hq this
    | cons q qs => simp [prependHead]
  have hlen := getLast_wrapped_length (str "L") (str ";") segs hne hw (by decide) hlast
  have hne1 : ¬ len ((prependHead (str "L") (appendLast (str ";") segs)).getLast hw) = 1 := by
    unfold len; omega
  have hjoin : strings.Join (prependHead (str "L") (appendLast (str ";") segs)) (str ".")
      = str "L" ++ strings.Join segs (str ".") ++ str ";" := by
    rw [join_prependHead _ _ _ (appendLast_ne_nil _ segs hne), join_appendLast _ _ _ hne,
      List.append_assoc]
  have hslice := slice_middle (str "L") (strings.Join segs (str ".")) (str ";")
  have h1 : len (str "L") = 1 := by decide
  have h2 : len (str ";") = 1 := by decide
  rw [h1, h2] at hslice
  unfold getClassName
  rw [hsl, split_join_wrapped _ _ _ segs hne hL hsemi hslash]
  simp only [bind, Except.bind, index_last _ hw, if_neg hne1, hjoin, hslice]

theorem getClassName_object_descriptor_witness :
    getClassName (str "L" ++ strings.Join [str "a", str "b", str "c"] (str "/") ++ str ";")
      = .ok (strings.Join [str "a", str "b", str "c"] (str ".")) ∧
    str "L" ++ strings.Join [str "a", str "b", str "c"] (str "/") ++ str ";" = str "La/b/c;" ∧
    strings.Join [str "a", str "b", str "c"] (str ".") = str "a.b.c" :=
  ⟨getClassName_object_descriptor [str "a", str "b", str "c"] (by decide) (by decide) (by decide),
    by decide, by decide⟩

/-! ## `strings.Fields` -/

/-- The table `spaceEncodings` holds the UTF-8 encodings of the code points of
`whiteSpace`. -/
theorem spaceEncodings_eq :
    strings.spaceEncodings
      = strings.whiteSpace.map (fun n => String.utf8EncodeChar (Char.ofNat n)) := by
  decide

theorem spaceEncodings_shape :
    ∀ e ∈ strings.spaceEncodings, e ≠ [] ∧ ∀ x ∈ e.tail, (0x80 : UInt8) ≤ x := by decide

theorem spaceEncodings_head :
    ∀ e ∈ strings.spaceEncodings, ∀ x ∈ e.head?,
      x ∈ ([0x09, 0x0A, 0x0B, 0x0C, 0x0D, 0x20] : List UInt8) ∨ (0x80 : UInt8) ≤ x := by decide

theorem spaceWidth_eq_zero (s : GoString) :
    strings.spaceWidth s = 0 ↔ ∀ e ∈ strings.spaceEncodings, ¬ e <+: s := by
  unfold strings.spaceWidth
  constructor
  · intro h e he hp
    cases hf : strings.spaceEncodings.find? (fun e => e.isPrefixOf s) with
    | none =>
      rw [List.find?_eq_none] at hf
      exact hf e he (by simpa using hp)
    | some e' =>
      rw [hf] at h
      have hm := List.mem_of_find?_eq_some hf
      have := (spaceEncodings_shape e' hm).1
      simp at h
      exact this h
  · intro h
    cases hf : strings.spaceEncodings.find? (fun e => e.isPrefixOf s) with
    | none => rfl
    | some e' =>
      have hm := List.mem_of_find?_eq_some hf
      have hp := List.find?_some hf
      simp at hp
      exact absurd hp (h e' hm)

theorem prefix_of_append_ascii (et v rest : GoString) (c : UInt8) (hc : c < 0x80)
    (het : ∀ x ∈ et, (0x80 : UInt8) ≤ x) (hp : et <+: v ++ c :: rest) : et <+: v := by
  induction v generalizing et with
  | nil =>
    cases et with
    | nil => exact List.nil_prefix
    | cons e0 et =>
      simp only [List.nil_append, List.cons_prefix_cons] at hp
      have := het e0 (by simp)
      rw [hp.1] at this
      exact absurd hc (UInt8.not_lt.mpr this)
  | cons b v ih =>
    cases et with
    | nil => exact List.nil_prefix
    | cons e0 et =>
      simp only [List.cons_append, List.cons_prefix_cons] at hp ⊢
      exact ⟨hp.1, ih et (fun x hx => het x (by simp [hx])) hp.2⟩

/-- A white-space character does not start at a byte because an ASCII byte follows
later. -/
theorem spaceWidth_append_ascii (b c : UInt8) (v rest : GoString) (hc : c < 0x80)
    (h : strings.spaceWidth (b :: v) = 0) : strings.spaceWidth (b :: v ++ c :: rest) = 0 := by
  rw [spaceWidth_eq_zero] at h ⊢
  intro e he hp
  apply h e he
  have hs := spaceEncodings_shape e he
  cases e with
  | nil => exact absurd rfl hs.1
  | cons e0 et =>
    simp only [List.cons_append, List.cons_prefix_cons] at hp ⊢
    exact ⟨hp.1, prefix_of_append_ascii et v rest c hc (by simpa using hs.2) hp.2⟩

theorem spaceWidth_ascii (c : UInt8) (rest : GoString) (hc : c < 0x80)
    (hns : c ∉ ([0x09, 0x0A, 0x0B, 0x0C, 0x0D, 0x20] : List UInt8)) :
    strings.spaceWidth (c :: rest) = 0 := by
  rw [spaceWidth_eq_zero]
  intro e he hp
  have hh := spaceEncodings_head e he
  cases e with
  | nil => exact absurd rfl (spaceEncodings_shape _ he).1
  | cons e0 et =>
    simp only [List.cons_prefix_cons] at hp
    have := hh e0 (by simp)
    rw [hp.1] at this
    rcases this with h1 | h1
    · exact hns h1
    · exact absurd hc (UInt8.not_lt.mpr h1)

theorem spaceWidth_space (rest : GoString) : strings.spaceWidth (0x20 :: rest) = 1 := by
  simp [strings.spaceWidth, strings.spaceEncodings, List.find?, List.isPrefixOf]

theorem hasSpace_cons (b : UInt8) (t : GoString) (h : hasSpace (b :: t) = false) :
    strings.spaceWidth (b :: t) = 0 ∧ hasSpace t = false := by
  simpa [hasSpace] using h

/-- White-space-free strings with a non-space ASCII byte between them are together
free of white space. -/
theorem hasSpace_append_ascii (x y : GoString) (c : UInt8) (hc : c < 0x80)
    (hns : c ∉ ([0x09, 0x0A, 0x0B, 0x0C, 0x0D, 0x20] : List UInt8))
    (hx : hasSpace x = false) (hy : hasSpace y = false) : hasSpace (x ++ c :: y) = false := by
  induction x with
  | nil => simp [hasSpace, spaceWidth_ascii c y hc hns, hy]
  | cons b x ih =>
    have h := hasSpace_cons b x hx
    have hw := spaceWidth_append_ascii b c x y hc h.1
    simp only [List.cons_append] at hw ⊢
    simp [hasSpace, hw, ih h.2]

theorem fieldsAux_token_space (t cur rest : GoString) (ht : hasSpace t = false)
    (hne : cur ++ t ≠ []) :
    strings.fieldsAux 0 cur (t ++ 0x20 :: rest) = (cur ++ t) :: strings.fieldsAux 0 [] rest := by
  induction t generalizing cur with
  | nil =>
    have hcur : cur ≠ [] := by simpa using hne
    simp [strings.fieldsAux, spaceWidth_space, hcur]
  | cons b t ih =>
    have h := hasSpace_cons b t ht
    have hw := spaceWidth_append_ascii b 0x20 t rest (by decide) h.1
    simp only [List.cons_append] at hw ⊢
    rw [strings.fieldsAux, hw]
    simp only
    rw [ih (cur ++ [b]) h.2 (by simp)]
    simp

theorem fieldsAux_token_end (t cur : GoString) (ht : hasSpace t = false) (hne : cur ++ t ≠ []) :
    strings.fieldsAux 0 cur t = [cur ++ t] := by
  induction t generalizing cur with
  | nil =>
    have hcur : cur ≠ [] := by simpa using hne
    simp [strings.fieldsAux, hcur]
  | cons b t ih =>
    have h := hasSpace_cons b t ht
    rw [strings.fieldsAux, h.1]
    simp only
    rw [ih (cur ++ [b]) h.2 (by simp)]
    simp

theorem isToken_iff (t : GoString) : isToken t = true ↔ t ≠ [] ∧ hasSpace t = false := by
  cases t <;> simp [isToken]

/-- A token followed by a space is the first field of the line. -/
theorem Fields_token_space (t rest : GoString) (ht : isToken t = true) :
    strings.Fields (t ++ str " " ++ rest) = t :: strings.Fields rest := by
  have h := (isToken_iff t).mp ht
  have hsp : str " " = [0x20] := by decide
  unfold strings.Fields
  rw [hsp, List.append_assoc]
  simpa using fieldsAux_token_space t [] rest h.2 (by simpa using h.1)

/-- A token alone is the only field of the line. -/
theorem Fields_token (t : GoString) (ht : isToken t = true) : strings.Fields t = [t] := by
  have h := (isToken_iff t).mp ht
  unfold strings.Fields
  simpa using fieldsAux_token_end t [] h.2 (by simpa using h.1)

theorem Fields_two (a b : GoString) (ha : isToken a = true) (hb : isToken b = true) :
    strings.Fields (a ++ str " " ++ b) = [a, b] := by
  rw [Fields_token_space a b ha, Fields_token b hb]

theorem Fields_three (a b c : GoString) (ha : isToken a = true) (hb : isToken b = true)
    (hc : isToken c = true) :
    strings.Fields (a ++ str " " ++ b ++ str " " ++ c) = [a, b, c] := by
  have : a ++ str " " ++ b ++ str " " ++ c = a ++ str " " ++ (b ++ str " " ++ c) := by
    simp [List.append_assoc]
  rw [this, Fields_token_space a _ ha, Fields_two b c hb hc]

theorem Fields_four (a b c d : GoString) (ha : isToken a = true) (hb : isToken b = true)
    (hc : isToken c = true) (hd : isToken d = true) :
    strings.Fields (a ++ str " " ++ b ++ str " " ++ c ++ str " " ++ d) = [a, b, c, d] := by
  have : a ++ str " " ++ b ++ str " " ++ c ++ str " " ++ d
      = a ++ str " " ++ (b ++ str " " ++ c ++ str " " ++ d) := by
    simp [List.append_assoc]
  rw [this, Fields_token_space a _ ha, Fields_three b c d hb hc hd]

/-! ## Dispatch of `convertLine`, single-byte descriptors, `.class` -/

theorem len_cons_ne_zero {α : Type} (x : α) (xs : List α) : ¬ len (x :: xs) = 0 := by
  unfold len
  simp only [List.length_cons]
  omega

theorem dispatch_class (jf : JavaFile) (line : GoString) (rest : List GoString)
    (h : strings.Fields line = str ".class" :: rest) :
    convertLine jf line = (do
      let accessor ← index (str ".class" :: rest) 1
      let name ← getClassName (← index (str ".class" :: rest) 2)
      pure { jf with lines := jf.lines ++ [⟨[accessor, str "class", name, str "\x7b"]⟩],
                     className := name }) := by
  unfold convertLine
  simp only [h, len_cons_ne_zero, if_false, index_zero_cons, bind, Except.bind, if_true]

theorem dispatch_method (jf : JavaFile) (line : GoString) (rest : List GoString)
    (h : strings.Fields line = str ".method" :: rest) :
    convertLine jf line = parseMethod jf (str ".method" :: rest) := by
  unfold convertLine
  simp only [h, len_cons_ne_zero, if_false, index_zero_cons, bind, Except.bind]
  rw [if_neg (by decide), if_neg (by decide), if_neg (by decide), if_pos trivial]

theorem dispatch_super (jf : JavaFile) (line : GoString) (rest : List GoString)
    (h : strings.Fields line = str ".super" :: rest) :
    convertLine jf line = parseSuper jf (str ".super" :: rest) := by
  unfold convertLine
  simp only [h, len_cons_ne_zero, if_false, index_zero_cons, bind, Except.bind]
  rw [if_neg (by decide), if_neg (by decide), if_neg (by decide), if_neg (by decide),
    if_neg (by decide), if_pos trivial]

theorem dispatch_const_string (jf : JavaFile) (line : GoString) (rest : List GoString)
    (h : strings.Fields line = str "const-string" :: rest) :
    convertLine jf line = finalString jf (str "const-string" :: rest) := by
  unfold convertLine
  simp only [h, len_cons_ne_zero, if_false, index_zero_cons, bind, Except.bind]
  rw [if_neg (by decide), if_neg (by decide), if_neg (by decide), if_neg (by decide),
    if_neg (by decide), if_neg (by decide), if_pos trivial]

theorem dispatch_return_object (jf : JavaFile) (line : GoString) (rest : List GoString)
    (h : strings.Fields line = str "return-object" :: rest) :
    convertLine jf line = returnObject jf (str "return-object" :: rest) := by
  unfold convertLine
  simp only [h, len_cons_ne_zero, if_false, index_zero_cons, bind, Except.bind]
  rw [if_neg (by decide), if_neg (by decide), if_neg (by decide), if_neg (by decide),
    if_neg (by decide), if_neg (by decide), if_neg (by decide), if_neg (by decide), if_pos trivial]

theorem dispatch_return_void (jf : JavaFile) (line : GoString) (rest : List GoString)
    (h : strings.Fields line = str "return-void" :: rest) :
    convertLine jf line = .ok { jf with lines := jf.lines ++ [⟨[str "return;"]⟩] } := by
  unfold convertLine
  simp only [h, len_cons_ne_zero, if_false, index_zero_cons, bind, Except.bind]
  rw [if_neg (by decide), if_pos trivial]
  rfl

theorem dispatch_end (jf : JavaFile) (line : GoString) (rest : List GoString)
    (h : strings.Fields line = str ".end" :: rest) :
    convertLine jf line = .ok { jf with lines := jf.lines ++ [⟨[str "\x7d"]⟩] } := by
  unfold convertLine
  simp only [h, len_cons_ne_zero, if_false, index_zero_cons, bind, Except.bind]
  rw [if_neg (by decide), if_neg (by decide), if_pos trivial]
  rfl

/-- C2 (amended): on a descriptor of exactly one byte other than `/`, `getClassName`
does not fail and returns the table value: `I` Integer, `Z` Boolean, `J` Long,
`F` Float, `D` Double, `V` void, and Object for every other byte. -/
theorem getClassName_single_byte (b : UInt8) (h : b ≠ '/'.toUInt8) :
    getClassName [b] = .ok
      (if b = 'I'.toUInt8 then str "Integer"
       else if b = 'Z'.toUInt8 then str "Boolean"
       else if b = 'J'.toUInt8 then str "Long"
       else if b = 'F'.toUInt8 then str "Float"
       else if b = 'D'.toUInt8 then str "Double"
       else if b = 'V'.toUInt8 then str "void"
       else str "Object") := by
  have hsl : str "/" = ['/'.toUInt8] := by decide
  have hb : '/'.toUInt8 ∉ [b] := by
    simp only [List.mem_singleton]
    exact fun e => h e.symm
  have hlen : len [b] = 1 := by simp [len]
  unfold getClassName
  rw [hsl, split_byte_none _ _ hb]
  simp only [bind, Except.bind, index_last [[b]] (by simp), List.getLast_singleton, hlen,
    if_true, index_zero_cons, pure, Except.pure]
  split_ifs <;> rfl

theorem getClassName_single_byte_witness :
    'Z'.toUInt8 ≠ '/'.toUInt8 ∧ str "Z" = ['Z'.toUInt8] ∧
      getClassName ['Z'.toUInt8] = .ok (str "Boolean") :=
  ⟨by decide, by decide, getClassName_single_byte 'Z'.toUInt8 (by decide)⟩

/-- C2, as stated, fails: the one-character descriptor `/` makes `getClassName`
panic, and the one-character descriptor `é` (two bytes) decodes to the empty string,
not to `Object`. -/
theorem getClassName_single_char_counterexample :
    "/".length = 1 ∧ getClassName (str "/") = .error .sliceOutOfRange ∧
    "é".length = 1 ∧ getClassName (str "é") = .ok (str "") ∧ str "" ≠ str "Object" := by
  decide

/-- C3 (amended): `.class <accessor> <descriptor>` appends the line
`<accessor> class <name> {` and sets `className` to `<name>`, where `<name>` is what
`getClassName` returns for the descriptor: for an object descriptor the dotted
fully-qualified name, not the simple name. -/
theorem convertLine_class (jf : JavaFile) (a d n : GoString) (ha : isToken a = true)
    (hd : isToken d = true) (hn : getClassName d = .ok n) :
    convertLine jf (str ".class " ++ a ++ str " " ++ d)
      = .ok { jf with lines := jf.lines ++ [⟨[a, str "class", n, str "\x7b"]⟩], className := n } ∧
    render ⟨[a, str "class", n, str "\x7b"]⟩ = a ++ str " class " ++ n ++ str " \x7b" := by
  constructor
  · have e : str ".class " = str ".class" ++ str " " := by decide
    rw [e, dispatch_class jf _ [a, d] (Fields_three _ a d (by decide) ha hd)]
    simp only [bind, Except.bind, index_one_cons, index_two_cons, hn]
    rfl
  · have e1 : str " class " = str " " ++ str "class" ++ str " " := by decide
    have e2 : str " \x7b" = str " " ++ str "\x7b" := by decide
    simp only [render, strings.Join, e1, e2, List.append_assoc]

theorem convertLine_class_witness :
    str ".class " ++ str "public" ++ str " " ++ str "La/b/C;" = str ".class public La/b/C;" ∧
    str "public" ++ str " class " ++ str "a.b.C" ++ str " \x7b" = str "public class a.b.C \x7b" ∧
    (convertLine {} (str ".class " ++ str "public" ++ str " " ++ str "La/b/C;")
      = .ok { lines := [⟨[str "public", str "class", str "a.b.C", str "\x7b"]⟩],
              className := str "a.b.C" } ∧
    render ⟨[str "public", str "class", str "a.b.C", str "\x7b"]⟩
      = str "public" ++ str " class " ++ str "a.b.C" ++ str " \x7b") :=
  ⟨by decide, by decide,
    convertLine_class {} (str "public") (str "La/b/C;") (str "a.b.C") (by decide) (by decide)
      (by decide)⟩

/-- C3, as stated, fails: after `.class public La/b/C;` on the empty unit the first
rendered line is `public class a.b.C {` and `className` is `a.b.C`, not
`public class C {` and `C`. -/
theorem convertLine_class_counterexample :
    (convertLine {} (str ".class public La/b/C;")).map printJavaFile
      = .ok [str "public class a.b.C \x7b"] ∧
    (convertLine {} (str ".class public La/b/C;")).map JavaFile.className = .ok (str "a.b.C") ∧
    str "public class a.b.C \x7b" ≠ str "public class C \x7b" ∧ str "a.b.C" ≠ str "C" := by
  decide

/-! ## `.super` -/

theorem index_last_append {α : Type} (init : List α) (x : α) :
    index (init ++ [x]) (len (init ++ [x]) - 1) = .ok x := by
  rw [index_last _ (by simp)]
  simp

theorem setIndex_last_append {α : Type} (init : List α) (x y : α) :
    setIndex (init ++ [x]) (len (init ++ [x]) - 1) y = .ok (init ++ [y]) := by
  unfold setIndex len
  have h : (0 : Int) ≤ ((init ++ [x]).length : Int) - 1 ∧
      ((init ++ [x]).length : Int) - 1 < ((init ++ [x]).length : Int) := by
    simp only [List.length_append, List.length_singleton]; push_cast; omega
  rw [if_pos h]
  have h2 : (((init ++ [x]).length : Int) - 1).toNat = init.length := by
    simp only [List.length_append, List.length_singleton]; push_cast; omega
  rw [h2]
  simp

/-- What `parseSuper` does when the decoded superclass name is not `Object` and the
last line of the unit has at least three tokens. -/
theorem parseSuper_rewrite (jf : JavaFile) (init : List Line) (op d a x n s : GoString)
    (rest tl : List GoString) (hl : jf.lines = init ++ [⟨a :: x :: n :: tl⟩])
    (hd : getClassName d = .ok s) (hs : s ≠ str "Object") :
    parseSuper jf (op :: d :: rest)
      = .ok { jf with lines := init ++ [⟨[a, str "class", n, str "extends", s]⟩] } := by
  unfold parseSuper
  simp only [bind, Except.bind, index_one_cons, hd, hl, ne_eq, hs, not_false_eq_true, if_true,
    index_last_append, index_zero_cons, index_two_cons, setIndex_last_append]
  rfl

/-- C4: the code at the failing input. After `.class public La/b/C;`, the line
`.super Ljava/lang/Object;` does not leave the declaration line alone: the decoded
name is `java.lang.Object`, which differs from `Object`, so the line is rewritten. -/
theorem convertLines_super_Object :
    getClassName (str "Ljava/lang/Object;") = .ok (str "java.lang.Object") ∧
    (convertLines {} [str ".class public La/b/C;"]).map printJavaFile
      = .ok [str "public class a.b.C \x7b"] ∧
    (convertLines {} [str ".class public La/b/C;", str ".super Ljava/lang/Object;"]).map
      printJavaFile = .ok [str "public class a.b.C extends java.lang.Object"] := by
  decide

/-- C5 (amended): when the last line of the unit is the class-declaration line
`<accessor> class <name> {`, the line `.super La/b/D;` replaces it by
`<accessor> class <name> extends a.b.D`: accessor and class name are kept, the line
ends with `extends a.b.D` (the dotted name from `getClassName`), and nothing else in
the unit changes. -/
theorem convertLine_super (jf : JavaFile) (init : List Line) (a n : GoString)
    (hl : jf.lines = init ++ [⟨[a, str "class", n, str "\x7b"]⟩]) :
    convertLine jf (str ".super La/b/D;")
      = .ok { jf with lines := init ++ [⟨[a, str "class", n, str "extends", str "a.b.D"]⟩] } ∧
    render ⟨[a, str "class", n, str "extends", str "a.b.D"]⟩
      = a ++ str " class " ++ n ++ str " extends a.b.D" := by
  constructor
  · rw [dispatch_super jf _ [str "La/b/D;"] (by decide)]
    exact parseSuper_rewrite jf init _ _ a _ n _ [] _ hl (by decide) (by decide)
  · have e1 : str " class " = str " " ++ str "class" ++ str " " := by decide
    have e2 : str " extends a.b.D" = str " " ++ str "extends" ++ str " " ++ str "a.b.D" := by
      decide
    simp only [render, strings.Join, e1, e2, List.append_assoc]

theorem convertLine_super_witness :
    convertLine { lines := [⟨[str "public", str "class", str "C", str "\x7b"]⟩],
                  className := str "C" } (str ".super La/b/D;")
      = .ok { lines := [⟨[str "public", str "class", str "C", str "extends", str "a.b.D"]⟩],
              className := str "C" } ∧
    render ⟨[str "public", str "class", str "C", str "extends", str "a.b.D"]⟩
      = str "public" ++ str " class " ++ str "C" ++ str " extends a.b.D" :=
  convertLine_super { lines := [⟨[str "public", str "class", str "C", str "\x7b"]⟩],
                      className := str "C" } [] (str "public") (str "C") rfl

/-- C5, as stated, fails: on the unit whose only line is `public class C {`, the line
`.super La/b/D;` leaves `public class C extends a.b.D`, which does not end with
`extends D`. -/
theorem convertLine_super_counterexample :
    (convertLine { lines := [⟨[str "public", str "class", str "C", str "\x7b"]⟩],
                   className := str "C" } (str ".super La/b/D;")).map printJavaFile
      = .ok [str "public class C extends a.b.D"] ∧
    (str "extends D").isSuffixOf (str "public class C extends a.b.D") = false := by
  decide

/-! ## Passthrough, `const-string`, `return-object` -/

theorem join_cons_ne_nil (a sep : GoString) (xs : List GoString) (h : xs ≠ []) :
    strings.Join (a :: xs) sep = a ++ sep ++ strings.Join xs sep := by
  cases xs with
  | nil => exact absurd rfl h
  | cons b rest => rfl

/-- C6: a line with at least one token, whose first token is none of the nine
mnemonics, appends exactly one line: `//` followed by all tokens of the input, in
order and unchanged; it is rendered as `// ` followed by the tokens joined by single
spaces. -/
theorem convertLine_passthrough (jf : JavaFile) (line : GoString)
    (hne : strings.Fields line ≠ [])
    (hop : (strings.Fields line).head hne ∉ mnemonics) :
    convertLine jf line
      = .ok { jf with lines := jf.lines ++ [⟨str "//" :: strings.Fields line⟩] } ∧
    render ⟨str "//" :: strings.Fields line⟩
      = str "// " ++ strings.Join (strings.Fields line) (str " ") := by
  constructor
  · unfold convertLine
    cases hf : strings.Fields line with
    | nil => exact absurd hf hne
    | cons op rest =>
      simp only [hf, List.head_cons, mnemonics, List.mem_cons, List.mem_singleton,
        List.not_mem_nil, or_false, not_or] at hop
      obtain ⟨h1, h2, h3, h4, h5, h6, h7, h8, h9⟩ := hop
      simp only [len_cons_ne_zero, if_false, index_zero_cons, bind, Except.bind, h1, h2, h3, h4,
        h5, h6, h7, h8, h9]
      rfl
  · have e : str "// " = str "//" ++ str " " := by decide
    rw [render, join_cons_ne_nil _ _ _ hne, e]

theorem convertLine_passthrough_witness :
    strings.Fields (str "foo bar baz") = [str "foo", str "bar", str "baz"] ∧
    str "// " ++ strings.Join (strings.Fields (str "foo bar baz")) (str " ")
      = str "// foo bar baz" ∧
    (convertLine {} (str "foo bar baz")
      = .ok { lines := [⟨str "//" :: strings.Fields (str "foo bar baz")⟩] } ∧
    render ⟨str "//" :: strings.Fields (str "foo bar baz")⟩
      = str "// " ++ strings.Join (strings.Fields (str "foo bar baz")) (str " ")) :=
  ⟨by decide, by decide, convertLine_passthrough {} (str "foo bar baz") (by decide) (by decide)⟩

theorem slice_dropLast_byte (v : GoString) (c : UInt8) :
    slice (v ++ [c]) 0 (len (v ++ [c]) - 1) = .ok v := by
  have := slice_middle [] v [c]
  simpa [len] using this

theorem isToken_append_byte (v : GoString) (c : UInt8) (hc : c < 0x80)
    (hns : c ∉ ([0x09, 0x0A, 0x0B, 0x0C, 0x0D, 0x20] : List UInt8)) (hv : hasSpace v = false) :
    isToken (v ++ [c]) = true := by
  rw [isToken_iff]
  exact ⟨by simp, hasSpace_append_ascii v [] c hc hns hv rfl⟩

/-- C7: for a variable name `v` and a literal token `s`, both free of white space,
the line `const-string v, s` appends exactly one line, rendered
`final String v = s ;`. -/
theorem convertLine_const_string (jf : JavaFile) (v s : GoString) (hv : hasSpace v = false)
    (hs : isToken s = true) :
    convertLine jf (str "const-string " ++ v ++ str ", " ++ s)
      = .ok { jf with lines := jf.lines ++
          [⟨[str "final String", v, str "=", s, str ";"]⟩] } ∧
    render ⟨[str "final String", v, str "=", s, str ";"]⟩
      = str "final String " ++ v ++ str " = " ++ s ++ str " ;" := by
  constructor
  · have e : str "const-string " ++ v ++ str ", " ++ s
        = str "const-string" ++ str " " ++ (v ++ [','.toUInt8]) ++ str " " ++ s := by
      have e1 : str "const-string " = str "const-string" ++ str " " := by decide
      have e2 : str ", " = [','.toUInt8] ++ str " " := by decide
      rw [e1, e2]
      simp only [List.append_assoc]
    have ht : isToken (v ++ [','.toUInt8]) = true :=
      isToken_append_byte v _ (by decide) (by decide) hv
    rw [e, dispatch_const_string jf _ [v ++ [','.toUInt8], s]
      (Fields_three _ _ s (by decide) ht hs)]
    unfold finalString
    simp only [bind, Except.bind, index_one_cons, index_two_cons, slice_dropLast_byte]
    rfl
  · have e1 : str "final String " = str "final String" ++ str " " := by decide
    have e2 : str " = " = str " " ++ str "=" ++ str " " := by decide
    have e3 : str " ;" = str " " ++ str ";" := by decide
    simp only [render, strings.Join, e1, e2, e3, List.append_assoc]

theorem convertLine_const_string_witness :
    str "const-string " ++ str "v0" ++ str ", " ++ str "\"hello\""
      = str "const-string v0, \"hello\"" ∧
    str "final String " ++ str "v0" ++ str " = " ++ str "\"hello\"" ++ str " ;"
      = str "final String v0 = \"hello\" ;" ∧
    (convertLine {} (str "const-string " ++ str "v0" ++ str ", " ++ str "\"hello\"")
      = .ok { lines := [⟨[str "final String", str "v0", str "=", str "\"hello\"", str ";"]⟩] } ∧
    render ⟨[str "final String", str "v0", str "=", str "\"hello\"", str ";"]⟩
      = str "final String " ++ str "v0" ++ str " = " ++ str "\"hello\"" ++ str " ;") :=
  ⟨by decide, by decide,
    convertLine_const_string {} (str "v0") (str "\"hello\"") (by decide) (by decide)⟩

/-- C8: the code at the failing input. `return-object v1,` appends the line
`return  v1`: the comma is stripped, but no semicolon ends the statement. -/
theorem convertLine_return_object_v1 :
    convertLine {} (str "return-object v1,") = .ok { lines := [⟨[str "return ", str "v1"]⟩] } ∧
    (convertLine {} (str "return-object v1,")).map printJavaFile = .ok [str "return  v1"] ∧
    str "return  v1" ≠ str "return  v1;" ∧
    (convertLine {} (str "return-void")).map printJavaFile = .ok [str "return;"] := by
  decide

/-! ## `.method` -/

/-- C9: on a unit whose class name is `C`, for an accessor token `a`, the lines
`.method a constructor <init>()V`, `return-void`, `.end method`, in this order, append
exactly three lines and change nothing else; they are rendered `a   C (  ) {`,
`return;` and `}`. -/
theorem convertLines_constructor (jf : JavaFile) (a : GoString) (ha : isToken a = true) :
    convertLines jf
        [str ".method " ++ a ++ str " constructor <init>()V", str "return-void",
         str ".end method"]
      = .ok { jf with lines := jf.lines ++
          [⟨[a, str "", str "", jf.className, str "(", str "", str ")", str "\x7b"]⟩,
           ⟨[str "return;"]⟩, ⟨[str "\x7d"]⟩] } ∧
    render ⟨[a, str "", str "", jf.className, str "(", str "", str ")", str "\x7b"]⟩
      = a ++ str "   " ++ jf.className ++ str " (  ) \x7b" ∧
    render ⟨[str "return;"]⟩ = str "return;" ∧
    render ⟨[str "\x7d"]⟩ = str "\x7d" := by
  refine ⟨?_, ?_, rfl, rfl⟩
  · have e : str ".method " ++ a ++ str " constructor <init>()V"
        = str ".method" ++ str " " ++ a ++ str " " ++ str "constructor" ++ str " "
            ++ str "<init>()V" := by
      have e1 : str ".method " = str ".method" ++ str " " := by decide
      have e2 : str " constructor <init>()V"
          = str " " ++ str "constructor" ++ str " " ++ str "<init>()V" := by decide
      rw [e1, e2]
      simp only [List.append_assoc]
    have h1 : convertLine jf (str ".method " ++ a ++ str " constructor <init>()V")
        = .ok { jf with lines := jf.lines ++
            [⟨[a, str "", str "", jf.className, str "(", str "", str ")", str "\x7b"]⟩] } := by
      rw [e, dispatch_method jf _ [a, str "constructor", str "<init>()V"]
        (Fields_four _ a _ _ (by decide) ha (by decide) (by decide))]
      unfold parseMethod
      simp only [bind, Except.bind, index_one_cons, index_two_cons]
      rw [if_neg (by decide)]
      simp only [pure, Except.pure, if_true]
      rfl
    simp only [convertLines, bind, Except.bind, h1]
    rw [dispatch_return_void _ _ [] (by decide)]
    simp only
    rw [dispatch_end _ _ [str "method"] (by decide)]
    simp [pure, Except.pure]
  · have e1 : str "   " = str " " ++ str "" ++ str " " ++ str "" ++ str " " := by decide
    have e2 : str " (  ) \x7b"
        = str " " ++ str "(" ++ str " " ++ str "" ++ str " " ++ str ")" ++ str " " ++ str "\x7b" := by
      decide
    simp only [render, strings.Join, e1, e2, List.append_assoc]

theorem convertLines_constructor_witness :
    str ".method " ++ str "public" ++ str " constructor <init>()V"
      = str ".method public constructor <init>()V" ∧
    str "public" ++ str "   " ++ str "C" ++ str " (  ) \x7b" = str "public   C (  ) \x7b" ∧
    (convertLines { className := str "C" }
        [str ".method " ++ str "public" ++ str " constructor <init>()V", str "return-void",
         str ".end method"]
      = .ok { className := str "C", lines :=
          [⟨[str "public", str "", str "", str "C", str "(", str "", str ")", str "\x7b"]⟩,
           ⟨[str "return;"]⟩, ⟨[str "\x7d"]⟩] } ∧
    render ⟨[str "public", str "", str "", str "C", str "(", str "", str ")", str "\x7b"]⟩
      = str "public" ++ str "   " ++ str "C" ++ str " (  ) \x7b" ∧
    render ⟨[str "return;"]⟩ = str "return;" ∧
    render ⟨[str "\x7d"]⟩ = str "\x7d") :=
  ⟨by decide, by decide, convertLines_constructor { className := str "C" } (str "public")
    (by decide)⟩

/-- The token `m(p)r` of a method declaration: it is one token, it is neither `static`
nor `constructor`, and it splits at `)` into `m(p` and `r`, and `m(p` at `(` into
`m` and the pieces of `p`. -/
theorem signature_token (m p r : GoString) (hm : hasSpace m = false) (hmo : '('.toUInt8 ∉ m)
    (hmc : ')'.toUInt8 ∉ m) (hp : hasSpace p = false) (hpc : ')'.toUInt8 ∉ p)
    (hr : hasSpace r = false) (hrc : ')'.toUInt8 ∉ r) :
    isToken (m ++ str "(" ++ p ++ str ")" ++ r) = true ∧
    m ++ str "(" ++ p ++ str ")" ++ r ≠ str "static" ∧
    m ++ str "(" ++ p ++ str ")" ++ r ≠ str "constructor" ∧
    strings.Split (m ++ str "(" ++ p ++ str ")" ++ r) (str ")") = [m ++ str "(" ++ p, r] ∧
    index (strings.Split (m ++ str "(" ++ p) (str "(")) 0 = .ok m := by
  have eo : str "(" = ['('.toUInt8] := by decide
  have ec : str ")" = [')'.toUInt8] := by decide
  have hmem : '('.toUInt8 ∈ m ++ str "(" ++ p ++ str ")" ++ r := by simp [eo]
  have hmp : hasSpace (m ++ '('.toUInt8 :: p) = false :=
    hasSpace_append_ascii m p _ (by decide) (by decide) hm hp
  have hall : hasSpace ((m ++ '('.toUInt8 :: p) ++ ')'.toUInt8 :: r) = false :=
    hasSpace_append_ascii _ r _ (by decide) (by decide) hmp hr
  have hform : m ++ str "(" ++ p ++ str ")" ++ r
      = (m ++ '('.toUInt8 :: p) ++ ')'.toUInt8 :: r := by
    simp [eo, ec, List.append_assoc]
  have hform2 : m ++ str "(" ++ p = m ++ '('.toUInt8 :: p := by
    simp [eo, List.append_assoc]
  refine ⟨?_, ?_, ?_, ?_, ?_⟩
  · rw [isToken_iff, hform]
    exact ⟨by simp, hall⟩
  · intro e
    rw [e] at hmem
    exact absurd hmem (by decide)
  · intro e
    rw [e] at hmem
    exact absurd hmem (by decide)
  · have hfree : ')'.toUInt8 ∉ m ++ '('.toUInt8 :: p := by
      simp only [List.mem_append, List.mem_cons, not_or]
      exact ⟨hmc, by decide, hpc⟩
    rw [hform, hform2, ec, split_byte_append _ _ _ hfree, split_byte_none _ _ hrc]
  · rw [hform2, eo, split_byte_append _ _ _ hmo]
    exact index_zero_cons _ _

/-- C10 (amended): for an accessor token `a`, a method name `m` free of white space,
`(` and `)`, a parameter text `p` free of white space and `)`, and a return
descriptor `r` free of white space and `)` that `getClassName` decodes to `n`, the
line `.method a m(p)r` appends exactly the line with tokens
`a`, empty, `n`, `m`, `(`, empty, `)`, `{`, and the line `.method a static m(p)r`
appends the same line with `static` as second token; `p` is not used. -/
theorem convertLine_method (jf : JavaFile) (a m p r n : GoString) (ha : isToken a = true)
    (hm : hasSpace m = false) (hmo : '('.toUInt8 ∉ m) (hmc : ')'.toUInt8 ∉ m)
    (hp : hasSpace p = false) (hpc : ')'.toUInt8 ∉ p)
    (hr : hasSpace r = false) (hrc : ')'.toUInt8 ∉ r) (hn : getClassName r = .ok n) :
    convertLine jf (str ".method " ++ a ++ str " " ++ (m ++ str "(" ++ p ++ str ")" ++ r))
      = .ok { jf with lines := jf.lines ++
          [⟨[a, str "", n, m, str "(", str "", str ")", str "\x7b"]⟩] } ∧
    convertLine jf
        (str ".method " ++ a ++ str " static " ++ (m ++ str "(" ++ p ++ str ")" ++ r))
      = .ok { jf with lines := jf.lines ++
          [⟨[a, str "static", n, m, str "(", str "", str ")", str "\x7b"]⟩] } := by
  obtain ⟨ht, hst, hct, hsplit, hname⟩ := signature_token m p r hm hmo hmc hp hpc hr hrc
  have e1 : str ".method " = str ".method" ++ str " " := by decide
  have e2 : str " static " = str " " ++ str "static" ++ str " " := by decide
  constructor
  · rw [e1, dispatch_method jf _ [a, m ++ str "(" ++ p ++ str ")" ++ r]
      (Fields_three _ a _ (by decide) ha ht)]
    unfold parseMethod
    simp only [bind, Except.bind, pure, Except.pure, index_one_cons, index_two_cons, hst, hct,
      if_false, hsplit, index_zero_cons, hname, hn]
    rfl
  · have e : str ".method" ++ str " " ++ a ++ (str " " ++ str "static" ++ str " ")
          ++ (m ++ str "(" ++ p ++ str ")" ++ r)
        = str ".method" ++ str " " ++ a ++ str " " ++ str "static" ++ str " "
          ++ (m ++ str "(" ++ p ++ str ")" ++ r) := by
      simp only [List.append_assoc]
    rw [e1, e2, e, dispatch_method jf _ [a, str "static", m ++ str "(" ++ p ++ str ")" ++ r]
      (Fields_four _ a _ _ (by decide) ha (by decide) ht)]
    unfold parseMethod
    simp only [bind, Except.bind, pure, Except.pure, index_one_cons, index_two_cons,
      index_three_cons, if_true, hct, if_false, hsplit, index_zero_cons, hname, hn]
    rfl

theorem convertLine_method_witness :
    str ".method " ++ str "public" ++ str " " ++ (str "foo" ++ str "(" ++ str "II" ++ str ")"
      ++ str "V") = str ".method public foo(II)V" ∧
    str ".method " ++ str "public" ++ str " static " ++ (str "foo" ++ str "(" ++ str "II"
      ++ str ")" ++ str "V") = str ".method public static foo(II)V" ∧
    (convertLine {} (str ".method " ++ str "public" ++ str " "
        ++ (str "foo" ++ str "(" ++ str "II" ++ str ")" ++ str "V"))
      = .ok { lines := [⟨[str "public", str "", str "void", str "foo", str "(", str "",
          str ")", str "\x7b"]⟩] } ∧
    convertLine {} (str ".method " ++ str "public" ++ str " static "
        ++ (str "foo" ++ str "(" ++ str "II" ++ str ")" ++ str "V"))
      = .ok { lines := [⟨[str "public", str "static", str "void", str "foo", str "(", str "",
          str ")", str "\x7b"]⟩] }) :=
  ⟨by decide, by decide,
    convertLine_method {} (str "public") (str "foo") (str "II") (str "V") (str "void")
      (by decide) (by decide) (by decide) (by decide) (by decide) (by decide) (by decide)
      (by decide) (by decide)⟩

/-- C10, as stated, fails: `getClassName` succeeds on the return descriptor `I)`
(with the empty name), but for `.method public foo()I)` the code decodes only the
text between the first and the second `)`, here `I`, and appends `Integer`. -/
theorem convertLine_method_counterexample :
    getClassName (str "I)") = .ok (str "") ∧
    convertLine {} (str ".method public foo()I)")
      = .ok { lines := [⟨[str "public", str "", str "Integer", str "foo", str "(", str "",
          str ")", str "\x7b"]⟩] } ∧
    str "Integer" ≠ str "" := by
  decide

/-! ## `.field` -/

/-- The token `n:d` of a field declaration: it is one token, it is not `static`, and
it splits at `:` into `n` and `d`. -/
theorem field_token (n d : GoString) (hn : hasSpace n = false) (hnc : ':'.toUInt8 ∉ n)
    (hd : hasSpace d = false) (hdc : ':'.toUInt8 ∉ d) :
    isToken (n ++ str ":" ++ d) = true ∧ n ++ str ":" ++ d ≠ str "static" ∧
    strings.Split (n ++ str ":" ++ d) (str ":") = [n, d] := by
  have ec : str ":" = [':'.toUInt8] := by decide
  have hmem : ':'.toUInt8 ∈ n ++ str ":" ++ d := by simp [ec]
  have hform : n ++ str ":" ++ d = n ++ ':'.toUInt8 :: d := by simp [ec, List.append_assoc]
  refine ⟨?_, ?_, ?_⟩
  · rw [isToken_iff, hform]
    exact ⟨by simp, hasSpace_append_ascii n d _ (by decide) (by decide) hn hd⟩
  · intro e
    rw [e] at hmem
    exact absurd hmem (by decide)
  · rw [hform, ec, split_byte_append _ _ _ hnc, split_byte_none _ _ hdc]

theorem dispatch_field (jf : JavaFile) (line : GoString) (rest : List GoString)
    (h : strings.Fields line = str ".field" :: rest) :
    convertLine jf line = parseField jf (str ".field" :: rest) := by
  unfold convertLine
  simp only [h, len_cons_ne_zero, if_false, index_zero_cons, bind, Except.bind]
  rw [if_neg (by decide), if_neg (by decide), if_neg (by decide), if_neg (by decide),
    if_pos trivial]

/-- C11: for an accessor token `a`, a field name `n` and a type descriptor `d`, both
free of white space and of `:`, where `getClassName` decodes `d` to `c`, the line
`.field a n:d` appends exactly the line with tokens `a`, empty, `c`, `n`, `;`, and
the line `.field a static n:d` appends `a`, `static`, `c`, `n`, `;`. -/
theorem convertLine_field (jf : JavaFile) (a n d c : GoString) (ha : isToken a = true)
    (hn : hasSpace n = false) (hnc : ':'.toUInt8 ∉ n)
    (hd : hasSpace d = false) (hdc : ':'.toUInt8 ∉ d) (hc : getClassName d = .ok c) :
    convertLine jf (str ".field " ++ a ++ str " " ++ (n ++ str ":" ++ d))
      = .ok { jf with lines := jf.lines ++ [⟨[a, str "", c, n, str ";"]⟩] } ∧
    convertLine jf (str ".field " ++ a ++ str " static " ++ (n ++ str ":" ++ d))
      = .ok { jf with lines := jf.lines ++ [⟨[a, str "static", c, n, str ";"]⟩] } := by
  obtain ⟨ht, hst, hsplit⟩ := field_token n d hn hnc hd hdc
  have e1 : str ".field " = str ".field" ++ str " " := by decide
  have e2 : str " static " = str " " ++ str "static" ++ str " " := by decide
  constructor
  · rw [e1, dispatch_field jf _ [a, n ++ str ":" ++ d] (Fields_three _ a _ (by decide) ha ht)]
    unfold parseField
    simp only [bind, Except.bind, pure, Except.pure, index_one_cons, index_two_cons, hst,
      if_false, hsplit, index_zero_cons, hc]
  · have e : str ".field" ++ str " " ++ a ++ (str " " ++ str "static" ++ str " ")
          ++ (n ++ str ":" ++ d)
        = str ".field" ++ str " " ++ a ++ str " " ++ str "static" ++ str " "
          ++ (n ++ str ":" ++ d) := by
      simp only [List.append_assoc]
    rw [e1, e2, e, dispatch_field jf _ [a, str "static", n ++ str ":" ++ d]
      (Fields_four _ a _ _ (by decide) ha (by decide) ht)]
    unfold parseField
    simp only [bind, Except.bind, pure, Except.pure, index_one_cons, index_two_cons,
      index_three_cons, if_true, hsplit, index_zero_cons, hc]

theorem convertLine_field_witness :
    str ".field " ++ str "private" ++ str " " ++ (str "x" ++ str ":" ++ str "I")
      = str ".field private x:I" ∧
    str ".field " ++ str "private" ++ str " static " ++ (str "x" ++ str ":" ++ str "I")
      = str ".field private static x:I" ∧
    (convertLine {} (str ".field " ++ str "private" ++ str " " ++ (str "x" ++ str ":" ++ str "I"))
      = .ok { lines := [⟨[str "private", str "", str "Integer", str "x", str ";"]⟩] } ∧
    convertLine {}
        (str ".field " ++ str "private" ++ str " static " ++ (str "x" ++ str ":" ++ str "I"))
      = .ok { lines := [⟨[str "private", str "static", str "Integer", str "x", str ";"]⟩] }) :=
  ⟨by decide, by decide,
    convertLine_field {} (str "private") (str "x") (str "I") (str "Integer") (by decide)
      (by decide) (by decide) (by decide) (by decide) (by decide)⟩

/-! ## Last-byte removal, blank lines -/

theorem slice_dropLast (t : GoString) (h : t ≠ []) :
    slice t 0 (len t - 1) = .ok t.dropLast := by
  have e : t = t.dropLast ++ [t.getLast h] := (List.dropLast_append_getLast h).symm
  have := slice_dropLast_byte t.dropLast (t.getLast h)
  rw [← e] at this
  exact this

/-- C20: for every token `t` (non-empty, free of white space), `return-object t`
appends the two-token line `return `, `t` without its last byte, whatever that byte
is; for an ASCII token the last byte is the last character. The destination variable
of `const-string` loses its last byte in the same way. -/
theorem return_object_drops_last_byte (jf : JavaFile) (t s : GoString) (ht : isToken t = true)
    (hs : isToken s = true) :
    convertLine jf (str "return-object " ++ t)
      = .ok { jf with lines := jf.lines ++ [⟨[str "return ", t.dropLast]⟩] } ∧
    convertLine jf (str "const-string " ++ t ++ str " " ++ s)
      = .ok { jf with lines := jf.lines ++
          [⟨[str "final String", t.dropLast, str "=", s, str ";"]⟩] } := by
  have hne : t ≠ [] := ((isToken_iff t).mp ht).1
  have e1 : str "return-object " = str "return-object" ++ str " " := by decide
  have e2 : str "const-string " = str "const-string" ++ str " " := by decide
  constructor
  · rw [e1, dispatch_return_object jf _ [t] (Fields_two _ t (by decide) ht)]
    unfold returnObject parseVariableName
    simp only [bind, Except.bind, pure, Except.pure, index_one_cons, slice_dropLast t hne]
  · rw [e2, dispatch_const_string jf _ [t, s] (Fields_three _ t s (by decide) ht hs)]
    unfold finalString
    simp only [bind, Except.bind, pure, Except.pure, index_one_cons, index_two_cons,
      slice_dropLast t hne]

theorem return_object_drops_last_byte_witness :
    str "return-object " ++ str "v1" = str "return-object v1" ∧
    (str "v1").dropLast = str "v" ∧
    (convertLine {} (str "return-object " ++ str "v1")
      = .ok { lines := [⟨[str "return ", (str "v1").dropLast]⟩] } ∧
    convertLine {} (str "const-string " ++ str "v1" ++ str " " ++ str "\"x\"")
      = .ok { lines := [⟨[str "final String", (str "v1").dropLast, str "=", str "\"x\"",
          str ";"]⟩] }) :=
  ⟨by decide, by decide,
    return_object_drops_last_byte {} (str "v1") (str "\"x\"") (by decide) (by decide)⟩

theorem fieldsAux_blank (k : Nat) (s : GoString) (h : blankAux k s = true) :
    strings.fieldsAux k [] s = [] := by
  induction s generalizing k with
  | nil => simp [strings.fieldsAux]
  | cons b rest ih =>
    cases k with
    | succ k =>
      rw [strings.fieldsAux]
      exact ih k (by simpa [blankAux] using h)
    | zero =>
      rw [blankAux] at h
      rw [strings.fieldsAux]
      cases hw : strings.spaceWidth (b :: rest) with
      | zero => rw [hw] at h; exact absurd h (by simp)
      | succ w =>
        rw [hw] at h
        simp only [if_true]
        exact ih w h

/-- A line without tokens leaves the unit as it is. -/
theorem convertLine_no_tokens (jf : JavaFile) (line : GoString)
    (h : strings.Fields line = []) : convertLine jf line = .ok jf := by
  unfold convertLine
  simp [h, len, pure, Except.pure]

/-- C14: on a line that is empty or consists only of white space, `strings.Fields`
finds no token and `convertLine` returns the unit unchanged, in all its fields, and
does not panic. -/
theorem convertLine_blank (jf : JavaFile) (line : GoString) (h : isBlank line = true) :
    strings.Fields line = [] ∧ convertLine jf line = .ok jf := by
  have hf : strings.Fields line = [] := fieldsAux_blank 0 line h
  exact ⟨hf, convertLine_no_tokens jf line hf⟩

theorem convertLine_blank_witness :
    (strings.Fields (str "") = [] ∧
      convertLine { lines := [⟨[str "x"]⟩], className := str "C" } (str "")
        = .ok { lines := [⟨[str "x"]⟩], className := str "C" }) ∧
    (strings.Fields (str " \t  ") = [] ∧
      convertLine { lines := [⟨[str "x"]⟩], className := str "C" } (str " \t  ")
        = .ok { lines := [⟨[str "x"]⟩], className := str "C" }) :=
  ⟨convertLine_blank _ (str "") (by decide), convertLine_blank _ (str " \t  ") (by decide)⟩

/-! ## Lines that panic: modifiers, `invoke-static` without `->` -/

/-- A string that does not contain the separator is its own single piece. -/
theorem split_none (sep s : GoString) (h : ¬ sep <:+: s) : strings.Split s sep = [s] := by
  unfold strings.Split
  induction s with
  | nil => simp [strings.splitAux]
  | cons b rest ih =>
    have hp : sep.isPrefixOf (b :: rest) = false := by
      cases hq : sep.isPrefixOf (b :: rest) with
      | false => rfl
      | true => exact absurd (List.isPrefixOf_iff_prefix.mp hq).isInfix h
    have hrest : ¬ sep <:+: rest := fun e => h (List.infix_cons e)
    rw [strings.splitAux, hp, ih hrest]
    simp

theorem index_zero_split (s sep : GoString) :
    ∃ p, index (strings.Split s sep) 0 = .ok p := by
  unfold strings.Split
  cases hq : strings.splitAux sep 0 s with
  | nil => exact absurd hq (splitAux_ne_nil sep 0 s)
  | cons p ps => exact ⟨p, index_zero_cons p ps⟩

theorem index_one_singleton {α : Type} (x : α) : index [x] 1 = .error .indexOutOfRange := by
  simpa using index_nat [x] 1

theorem byte_not_contained (c : UInt8) (t : GoString) (h : c ∉ t) : ¬ [c] <:+: t := by
  intro e
  exact h (e.mem (by simp))

theorem index_three_short {α : Type} (x y z : α) :
    index [x, y, z] 3 = .error .indexOutOfRange := by
  simpa using index_nat [x, y, z] 3

/-- C18: only `static` is taken as a modifier. Let `t` be the token after the accessor
(where `static` counts as that token only when it ends the line), or the token after
the accessor and `static`. A `.method` line panics with an index out of range if `t`
is not `constructor` and holds no `)`, and a `.field` line panics with an index out of
range if `t` holds no `:`; no line is appended. -/
theorem convertLine_modifier_fails (jf : JavaFile) (line op a t : GoString)
    (rest : List GoString)
    (hshape : (strings.Fields line = op :: a :: t :: rest ∧ (t = str "static" → rest = [])) ∨
      strings.Fields line = op :: a :: str "static" :: t :: rest) :
    (op = str ".method" → t ≠ str "constructor" → ')'.toUInt8 ∉ t →
      convertLine jf line = .error .indexOutOfRange) ∧
    (op = str ".field" → ':'.toUInt8 ∉ t → convertLine jf line = .error .indexOutOfRange) := by
  have ec : str ")" = [')'.toUInt8] := by decide
  have eo : str ":" = [':'.toUInt8] := by decide
  constructor
  · intro hop hct hfree
    subst hop
    have hsplit : strings.Split t (str ")") = [t] := by
      rw [ec]; exact split_none _ _ (byte_not_contained _ _ hfree)
    obtain ⟨p, hp⟩ := index_zero_split t (str "(")
    rcases hshape with ⟨hf, hst⟩ | hf
    · rw [dispatch_method jf line _ hf]
      unfold parseMethod
      by_cases hs : t = str "static"
      · rw [hst hs, hs]
        simp only [bind, Except.bind, pure, Except.pure, index_one_cons, index_two_cons,
          if_true, index_three_short]
      · simp only [bind, Except.bind, pure, Except.pure, index_one_cons, index_two_cons, hs,
          hct, if_false, hsplit, index_zero_cons, index_one_singleton, hp]
    · rw [dispatch_method jf line _ hf]
      unfold parseMethod
      simp only [bind, Except.bind, pure, Except.pure, index_one_cons, index_two_cons,
        index_three_cons, if_true, hct, if_false, hsplit, index_zero_cons, index_one_singleton,
        hp]
  · intro hop hfree
    subst hop
    have hsplit : strings.Split t (str ":") = [t] := by
      rw [eo]; exact split_none _ _ (byte_not_contained _ _ hfree)
    rcases hshape with ⟨hf, hst⟩ | hf
    · rw [dispatch_field jf line _ hf]
      unfold parseField
      by_cases hs : t = str "static"
      · rw [hst hs, hs]
        simp only [bind, Except.bind, pure, Except.pure, index_two_cons, if_true,
          index_three_short]
      · simp only [bind, Except.bind, pure, Except.pure, index_one_cons, index_two_cons, hs,
          if_false, hsplit, index_one_singleton]
    · rw [dispatch_field jf line _ hf]
      unfold parseField
      simp only [bind, Except.bind, pure, Except.pure, index_one_cons, index_two_cons,
        index_three_cons, if_true, hsplit, index_one_singleton]

theorem convertLine_modifier_fails_witness :
    convertLine {} (str ".method public final foo()V") = .error .indexOutOfRange ∧
    convertLine {} (str ".field private final x:I") = .error .indexOutOfRange ∧
    convertLine {} (str ".method public static final foo()V") = .error .indexOutOfRange :=
  ⟨(convertLine_modifier_fails {} (str ".method public final foo()V") (str ".method")
      (str "public") (str "final") [str "foo()V"] (Or.inl ⟨by decide, by decide⟩)).1
      rfl (by decide) (by decide),
    (convertLine_modifier_fails {} (str ".field private final x:I") (str ".field")
      (str "private") (str "final") [str "x:I"] (Or.inl ⟨by decide, by decide⟩)).2
      rfl (by decide),
    (convertLine_modifier_fails {} (str ".method public static final foo()V") (str ".method")
      (str "public") (str "final") [str "foo()V"] (Or.inr (by decide))).1
      rfl (by decide) (by decide)⟩

theorem dispatch_invoke_static (jf : JavaFile) (line : GoString) (rest : List GoString)
    (h : strings.Fields line = str "invoke-static" :: rest) :
    convertLine jf line = invokeStatic jf (str "invoke-static" :: rest) := by
  unfold convertLine
  simp only [h, len_cons_ne_zero, if_false, index_zero_cons, bind, Except.bind]
  rw [if_neg (by decide), if_neg (by decide), if_neg (by decide), if_neg (by decide),
    if_neg (by decide), if_neg (by decide), if_neg (by decide), if_pos trivial]

theorem slice_braces_short (t : GoString) (h : t.length < 3) :
    slice t 1 (len t - 2) = .error .sliceOutOfRange := by
  unfold slice len
  rw [if_neg]
  omega

theorem slice_braces_long (t : GoString) (h : ¬ t.length < 3) :
    ∃ v, slice t 1 (len t - 2) = .ok v := by
  unfold slice len
  rw [if_pos]
  · exact ⟨_, rfl⟩
  · omega

/-- C19: an `invoke-static` line whose third token holds no `->` panics: with a slice
out of range when operand 1 is shorter than three bytes, and otherwise with an index
out of range at the second part of the split. -/
theorem invoke_static_without_arrow_panics (jf : JavaFile) (line t1 t2 : GoString)
    (rest : List GoString)
    (h : strings.Fields line = str "invoke-static" :: t1 :: t2 :: rest)
    (harrow : ¬ str "->" <:+: t2) :
    convertLine jf line
      = .error (if t1.length < 3 then .sliceOutOfRange else .indexOutOfRange) := by
  rw [dispatch_invoke_static jf line _ h]
  unfold invokeStatic
  by_cases hl : t1.length < 3
  · simp only [bind, Except.bind, index_one_cons, slice_braces_short t1 hl, if_pos hl]
  · obtain ⟨v, hv⟩ := slice_braces_long t1 hl
    simp only [bind, Except.bind, index_one_cons, index_two_cons, hv, split_none _ _ harrow,
      index_one_singleton, if_neg hl]

theorem invoke_static_without_arrow_panics_witness :
    strings.Fields (str "invoke-static \x7bp0, p1\x7d, Lfoo/Bar;->baz(II)V")
      = [str "invoke-static", str "\x7bp0,", str "p1\x7d,", str "Lfoo/Bar;->baz(II)V"] ∧
    convertLine {} (str "invoke-static \x7bp0, p1\x7d, Lfoo/Bar;->baz(II)V")
      = .error (if (str "\x7bp0,").length < 3 then .sliceOutOfRange else .indexOutOfRange) ∧
    (if (str "\x7bp0,").length < 3 then Panic.sliceOutOfRange else Panic.indexOutOfRange)
      = Panic.indexOutOfRange :=
  ⟨by decide,
    invoke_static_without_arrow_panics {} (str "invoke-static \x7bp0, p1\x7d, Lfoo/Bar;->baz(II)V")
      (str "\x7bp0,") (str "p1\x7d,") [str "Lfoo/Bar;->baz(II)V"] (by decide) (by decide),
    by decide⟩

/-! ## The two branches of `getClassName` -/

theorem join_cons_cons (b : UInt8) (p sep : GoString) (ps : List GoString) :
    strings.Join ((b :: p) :: ps) sep = b :: strings.Join (p :: ps) sep := by
  cases ps <;> simp [strings.Join]

/-- Splitting at one byte and joining with another replaces the byte. -/
theorem join_split_byte (c c' : UInt8) (s : GoString) :
    strings.Join (strings.Split s [c]) [c'] = s.map (fun b => if b = c then c' else b) := by
  unfold strings.Split
  induction s with
  | nil => simp [strings.splitAux, strings.Join]
  | cons b rest ih =>
    rw [splitAux_byte_cons]
    by_cases hb : b = c
    · rw [if_pos hb, join_cons_ne_nil _ _ _ (splitAux_ne_nil _ _ _), ih]
      simp [hb]
    · rw [if_neg hb]
      cases hq : strings.splitAux [c] 0 rest with
      | nil => exact absurd hq (splitAux_ne_nil _ _ _)
      | cons p ps =>
        rw [hq] at ih
        simp only [join_cons_cons, ih, List.map_cons, if_neg hb]

theorem slice_strip (s : GoString) (h : 2 ≤ s.length) :
    slice s 1 (len s - 1) = .ok ((s.drop 1).dropLast) := by
  unfold slice len
  rw [if_pos (by omega)]
  have e : ((s.length : Int) - 1 - 1).toNat = (s.drop 1).length - 1 := by
    simp only [List.length_drop]; omega
  have e1 : (1 : Int).toNat = 1 := rfl
  rw [e, e1, List.dropLast_eq_take]

theorem slice_strip_short (s : GoString) (h : s.length < 2) :
    slice s 1 (len s - 1) = .error .sliceOutOfRange := by
  unfold slice len
  rw [if_neg]
  omega

/-- What `getClassName` computes, in terms of the last `/`-separated segment of the
descriptor: the table on a one-byte segment, and otherwise the slice of the
descriptor with every `/` replaced by `.`. -/
theorem getClassName_eq (d last : GoString)
    (hlast : (strings.Split d (str "/")).getLast? = some last) :
    getClassName d =
      if len last = 1 then
        (index last 0).bind (fun c =>
          if c = 'I'.toUInt8 then .ok (str "Integer")
          else if c = 'Z'.toUInt8 then .ok (str "Boolean")
          else if c = 'J'.toUInt8 then .ok (str "Long")
          else if c = 'F'.toUInt8 then .ok (str "Float")
          else if c = 'D'.toUInt8 then .ok (str "Double")
          else if c = 'V'.toUInt8 then .ok (str "void")
          else .ok (str "Object"))
      else
        slice (d.map (fun b => if b = '/'.toUInt8 then '.'.toUInt8 else b)) 1 (len d - 1) := by
  have hsl : str "/" = ['/'.toUInt8] := by decide
  have hdot : str "." = ['.'.toUInt8] := by decide
  have hne : strings.Split d (str "/") ≠ [] := splitAux_ne_nil _ _ _
  have hl : (strings.Split d (str "/")).getLast hne = last := by
    rw [List.getLast?_eq_getLast _ hne] at hlast
    exact Option.some.inj hlast
  have hj := join_split_byte '/'.toUInt8 '.'.toUInt8 d
  have hlen : len (d.map (fun b => if b = '/'.toUInt8 then '.'.toUInt8 else b)) = len d := by
    simp [len]
  unfold getClassName
  simp only [bind, index_last _ hne, hl, Except.bind, pure, Except.pure]
  by_cases h1 : len last = 1
  · simp only [h1, if_true]
  · simp only [h1, if_false]
    rw [hdot, hsl, hj, hlen]

theorem getClassName_table_ok (last : GoString) (h : len last = 1) :
    ∃ r, (index last 0).bind (fun c =>
          if c = 'I'.toUInt8 then .ok (str "Integer")
          else if c = 'Z'.toUInt8 then .ok (str "Boolean")
          else if c = 'J'.toUInt8 then .ok (str "Long")
          else if c = 'F'.toUInt8 then .ok (str "Float")
          else if c = 'D'.toUInt8 then .ok (str "Double")
          else if c = 'V'.toUInt8 then .ok (str "void")
          else .ok (str "Object")) = (.ok r : Except Panic GoString) := by
  match last, h with
  | [c], _ =>
    simp only [index_zero_cons, Except.bind]
    split_ifs <;> exact ⟨_, rfl⟩
  | [], h => simp [len] at h
  | _ :: _ :: _, h => simp [len] at h; omega

/-- C15: for a descriptor `d` of at least two bytes whose last `/`-separated segment
is not exactly one byte, `getClassName` returns `d` with every `/` replaced by `.`
and with its first and its last byte removed, whatever these two bytes are. For an
ASCII descriptor bytes are characters. -/
theorem getClassName_strips (d : GoString) (hlen : 2 ≤ d.length)
    (hseg : ∀ seg, (strings.Split d (str "/")).getLast? = some seg → seg.length ≠ 1) :
    getClassName d
      = .ok (((d.map (fun b => if b = '/'.toUInt8 then '.'.toUInt8 else b)).drop 1).dropLast) := by
  have hne : strings.Split d (str "/") ≠ [] := splitAux_ne_nil _ _ _
  have hlast := List.getLast?_eq_getLast _ hne
  have h1 : ¬ len ((strings.Split d (str "/")).getLast hne) = 1 := by
    have := hseg _ hlast
    unfold len; omega
  rw [getClassName_eq d _ hlast, if_neg h1]
  have hl : len d = len (d.map (fun b => if b = '/'.toUInt8 then '.'.toUInt8 else b)) := by
    simp [len]
  rw [hl]
  exact slice_strip _ (by simpa using hlen)

theorem getClassName_strips_witness :
    (getClassName (str "java/lang/String")
      = .ok ((((str "java/lang/String").map
          (fun b => if b = '/'.toUInt8 then '.'.toUInt8 else b)).drop 1).dropLast)) ∧
    (((str "java/lang/String").map
          (fun b => if b = '/'.toUInt8 then '.'.toUInt8 else b)).drop 1).dropLast
      = str "ava.lang.Strin" ∧
    (getClassName (str "[I")
      = .ok ((((str "[I").map
          (fun b => if b = '/'.toUInt8 then '.'.toUInt8 else b)).drop 1).dropLast)) ∧
    (((str "[I").map (fun b => if b = '/'.toUInt8 then '.'.toUInt8 else b)).drop 1).dropLast
      = str "" :=
  ⟨getClassName_strips (str "java/lang/String") (by decide) (by decide), by decide,
    getClassName_strips (str "[I") (by decide) (by decide), by decide⟩

theorem getClassName_ok_of_length (d : GoString) (h : 2 ≤ d.length) :
    ∃ r, getClassName d = .ok r := by
  have hne : strings.Split d (str "/") ≠ [] := splitAux_ne_nil _ _ _
  rw [getClassName_eq d _ (List.getLast?_eq_getLast _ hne)]
  by_cases h1 : len ((strings.Split d (str "/")).getLast hne) = 1
  · rw [if_pos h1]
    exact getClassName_table_ok _ h1
  · rw [if_neg h1]
    have hl : len d = len (d.map (fun b => if b = '/'.toUInt8 then '.'.toUInt8 else b)) := by
      simp [len]
    rw [hl]
    exact ⟨_, slice_strip _ (by simpa using h)⟩

theorem getClassName_ok_of_byte (b : UInt8) (h : b ≠ '/'.toUInt8) :
    ∃ r, getClassName [b] = .ok r := by
  have hsl : str "/" = ['/'.toUInt8] := by decide
  have hb : '/'.toUInt8 ∉ [b] := by
    simp only [List.mem_singleton]
    exact fun e => h e.symm
  have hs : (strings.Split [b] (str "/")).getLast? = some [b] := by
    rw [hsl, split_byte_none _ _ hb]
    rfl
  rw [getClassName_eq [b] [b] hs, if_pos (by simp [len])]
  exact getClassName_table_ok _ (by simp [len])

theorem getClassName_empty : getClassName (str "") = .error .sliceOutOfRange := by decide

/-- C16: `getClassName` panics, with a slice out of range, exactly on the empty
string and on `/`, and returns a name on every other input. So the lines
`.field a n:` and `.method a m()`, which hand it the empty descriptor, make
`convertLine` panic (`a` a token, `n` free of white space and `:`, `m` free of white
space and `)`). -/
theorem getClassName_fails_iff (d : GoString) (jf : JavaFile) (a n m : GoString)
    (ha : isToken a = true) (hn : hasSpace n = false) (hnc : ':'.toUInt8 ∉ n)
    (hm : hasSpace m = false) (hmc : ')'.toUInt8 ∉ m) :
    (getClassName d = .error .sliceOutOfRange ↔ d = str "" ∨ d = str "/") ∧
    (d ≠ str "" → d ≠ str "/" → ∃ r, getClassName d = .ok r) ∧
    convertLine jf (str ".field " ++ a ++ str " " ++ (n ++ str ":"))
      = .error .sliceOutOfRange ∧
    convertLine jf (str ".method " ++ a ++ str " " ++ (m ++ str "()"))
      = .error .sliceOutOfRange := by
  have hok : d ≠ str "" → d ≠ str "/" → ∃ r, getClassName d = .ok r := by
    intro h1 h2
    match d, h1, h2 with
    | [], h1, _ => exact absurd rfl h1
    | [b], _, h2 =>
      have hslash : str "/" = ['/'.toUInt8] := by decide
      exact getClassName_ok_of_byte b (fun e => h2 (by rw [e, hslash]))
    | _ :: _ :: _, _, _ => exact getClassName_ok_of_length _ (by simp)
  refine ⟨⟨?_, ?_⟩, hok, ?_, ?_⟩
  · intro herr
    by_contra hcon
    rw [not_or] at hcon
    obtain ⟨r, hr⟩ := hok hcon.1 hcon.2
    rw [hr] at herr
    exact absurd herr (by simp)
  · rintro (h | h) <;> subst h <;> decide
  · have hshape := field_token n [] hn hnc rfl (by simp)
    simp only [List.append_nil] at hshape
    obtain ⟨ht, hst, hsplit⟩ := hshape
    have e1 : str ".field " = str ".field" ++ str " " := by decide
    rw [e1, dispatch_field jf _ [a, n ++ str ":"] (Fields_three _ a _ (by decide) ha ht)]
    unfold parseField
    simp only [bind, Except.bind, pure, Except.pure, index_one_cons, index_two_cons, hst,
      if_false, hsplit, index_zero_cons, getClassName_empty]
    rfl
  · have eo : str "()" = ['('.toUInt8] ++ [')'.toUInt8] := by decide
    have ec : str ")" = [')'.toUInt8] := by decide
    have hform : m ++ str "()" = (m ++ ['('.toUInt8]) ++ ')'.toUInt8 :: [] := by
      simp [eo, List.append_assoc]
    have hmo : hasSpace (m ++ ['('.toUInt8]) = false :=
      hasSpace_append_ascii m [] _ (by decide) (by decide) hm rfl
    have ht : isToken (m ++ str "()") = true := by
      rw [isToken_iff, hform]
      exact ⟨by simp, hasSpace_append_ascii _ [] _ (by decide) (by decide) hmo rfl⟩
    have hmem : ')'.toUInt8 ∈ m ++ str "()" := by simp [eo]
    have hst : m ++ str "()" ≠ str "static" := by
      intro e; rw [e] at hmem; exact absurd hmem (by decide)
    have hct : m ++ str "()" ≠ str "constructor" := by
      intro e; rw [e] at hmem; exact absurd hmem (by decide)
    have hfree : ')'.toUInt8 ∉ m ++ ['('.toUInt8] := by
      simp only [List.mem_append, List.mem_singleton, not_or]
      exact ⟨hmc, by decide⟩
    have hsplit : strings.Split (m ++ str "()") (str ")") = [m ++ ['('.toUInt8], []] := by
      rw [hform, ec, split_byte_append _ _ _ hfree]
      rfl
    obtain ⟨p, hp⟩ := index_zero_split (m ++ ['('.toUInt8]) (str "(")
    have e1 : str ".method " = str ".method" ++ str " " := by decide
    rw [e1, dispatch_method jf _ [a, m ++ str "()"] (Fields_three _ a _ (by decide) ha ht)]
    unfold parseMethod
    simp only [bind, Except.bind, pure, Except.pure, index_one_cons, index_two_cons, hst, hct,
      if_false, hsplit, index_zero_cons, hp, getClassName_empty]
    rfl

theorem getClassName_fails_iff_witness :
    ((getClassName (str "/") = .error .sliceOutOfRange ↔ str "/" = str "" ∨ str "/" = str "/") ∧
    (str "/" ≠ str "" → str "/" ≠ str "/" → ∃ r, getClassName (str "/") = .ok r) ∧
    convertLine {} (str ".field " ++ str "public" ++ str " " ++ (str "x" ++ str ":"))
      = .error .sliceOutOfRange ∧
    convertLine {} (str ".method " ++ str "public" ++ str " " ++ (str "foo" ++ str "()"))
      = .error .sliceOutOfRange) ∧
    str ".field " ++ str "public" ++ str " " ++ (str "x" ++ str ":") = str ".field public x:" ∧
    str ".method " ++ str "public" ++ str " " ++ (str "foo" ++ str "()")
      = str ".method public foo()" :=
  ⟨getClassName_fails_iff (str "/") {} (str "public") (str "x") (str "foo") (by decide)
      (by decide) (by decide) (by decide) (by decide),
    by decide, by decide⟩

/-! ## When `.super` panics -/

theorem index_neg_one {α : Type} (xs : List α) : index xs (-1) = .error .indexOutOfRange := by
  unfold index
  rw [if_pos (by omega)]

theorem index_zero_nil {α : Type} : index ([] : List α) 0 = .error .indexOutOfRange := by
  simpa using index_nat ([] : List α) 0

theorem index_two_short {α : Type} (xs : List α) (h : xs.length < 3) :
    index xs 2 = .error .indexOutOfRange := by
  have := index_nat xs 2
  rw [List.get?_eq_none.mpr (by omega)] at this
  simpa using this

/-- What `parseSuper` does when the decoded name is not `Object`: it panics on a unit
without lines and on a last line of fewer than three tokens, and rewrites the last
line otherwise. -/
theorem parseSuper_cases (jf : JavaFile) (op d s : GoString) (rest : List GoString)
    (hd : getClassName d = .ok s) (hs : s ≠ str "Object") :
    ((jf.lines = [] ∨ ∃ l, jf.lines.getLast? = some l ∧ l.l.length < 3) →
      parseSuper jf (op :: d :: rest) = .error .indexOutOfRange) ∧
    (¬ (jf.lines = [] ∨ ∃ l, jf.lines.getLast? = some l ∧ l.l.length < 3) →
      ∃ jf', parseSuper jf (op :: d :: rest) = .ok jf') := by
  rcases List.eq_nil_or_concat jf.lines with hnil | ⟨init, l, hl⟩
  rotate_left
  rw [List.concat_eq_append] at hl
  rotate_left
  · constructor
    · intro _
      unfold parseSuper
      simp only [bind, Except.bind, index_one_cons, hd, hnil, ne_eq, hs, not_false_eq_true,
        if_true, len, List.length_nil, Int.Nat.cast_ofNat_Int, zero_sub, index_neg_one]
    · intro hcon
      exact absurd (Or.inl hnil) hcon
  · have hlast : jf.lines.getLast? = some l := by rw [hl]; simp
    by_cases hshort : l.l.length < 3
    · constructor
      · intro _
        unfold parseSuper
        simp only [bind, Except.bind, index_one_cons, hd, hl, ne_eq, hs, not_false_eq_true,
          if_true, index_last_append]
        cases hq : l.l with
        | nil => rw [index_zero_nil]
        | cons a tl =>
          have h2 : index (a :: tl) 2 = .error .indexOutOfRange :=
            index_two_short _ (by rw [← hq]; exact hshort)
          rw [index_zero_cons, h2]
      · intro hcon
        exact absurd (Or.inr ⟨l, hlast, hshort⟩) hcon
    · constructor
      · rintro (hnil | ⟨l', hl', hshort'⟩)
        · rw [hnil] at hl
          exact absurd hl (by simp)
        · rw [hlast] at hl'
          cases hl'
          exact absurd hshort' hshort
      · intro _
        match hq : l.l, hshort with
        | a :: x :: n :: tl, _ =>
          have hl2 : jf.lines = init ++ [⟨a :: x :: n :: tl⟩] := by
            rw [hl, ← hq]
          exact ⟨_, parseSuper_rewrite jf init op d a x n s rest tl hl2 hd hs⟩
        | [], h => exact absurd (by decide) h
        | [_], h => exact absurd (by simp) h
        | [_, _], h => exact absurd (by simp) h

/-! ## Every handler appends one line -/

theorem parseField_appends (jf jf' : JavaFile) (toks : List GoString)
    (h : parseField jf toks = .ok jf') :
    ∃ l, jf' = { jf with lines := jf.lines ++ [l] } := by
  unfold parseField at h
  simp only [bind, Except.bind, pure, Except.pure] at h
  repeat' split at h
  all_goals first
    | (cases h; done)
    | (cases h; exact ⟨_, rfl⟩)

theorem parseMethod_appends (jf jf' : JavaFile) (toks : List GoString)
    (h : parseMethod jf toks = .ok jf') :
    ∃ l, jf' = { jf with lines := jf.lines ++ [l] } := by
  unfold parseMethod at h
  simp only [bind, Except.bind, pure, Except.pure] at h
  repeat' split at h
  all_goals first
    | (cases h; done)
    | (cases h; exact ⟨_, rfl⟩)

theorem finalString_appends (jf jf' : JavaFile) (toks : List GoString)
    (h : finalString jf toks = .ok jf') :
    ∃ l, jf' = { jf with lines := jf.lines ++ [l] } := by
  unfold finalString at h
  simp only [bind, Except.bind, pure, Except.pure] at h
  repeat' split at h
  all_goals first
    | (cases h; done)
    | (cases h; exact ⟨_, rfl⟩)

theorem invokeStatic_appends (jf jf' : JavaFile) (toks : List GoString)
    (h : invokeStatic jf toks = .ok jf') :
    ∃ l, jf' = { jf with lines := jf.lines ++ [l] } := by
  unfold invokeStatic at h
  simp only [bind, Except.bind, pure, Except.pure] at h
  repeat' split at h
  all_goals first
    | (cases h; done)
    | (cases h; exact ⟨_, rfl⟩)

theorem returnObject_appends (jf jf' : JavaFile) (toks : List GoString)
    (h : returnObject jf toks = .ok jf') :
    ∃ v, jf' = { jf with lines := jf.lines ++ [⟨[str "return ", v]⟩] } := by
  unfold returnObject at h
  simp only [bind, Except.bind, pure, Except.pure] at h
  repeat' split at h
  all_goals first
    | (cases h; done)
    | (cases h; exact ⟨_, rfl⟩)

theorem setIndex_last_inv {α : Type} (xs ys : List α) (x : α)
    (h : setIndex xs (len xs - 1) x = .ok ys) :
    ∃ init l, xs = init ++ [l] ∧ ys = init ++ [x] := by
  rcases List.eq_nil_or_concat xs with hnil | ⟨init, l, hl⟩
  · subst hnil
    exact absurd h (by simp [setIndex, len])
  · rw [List.concat_eq_append] at hl
    subst hl
    rw [setIndex_last_append] at h
    cases h
    exact ⟨init, l, rfl, rfl⟩

/-- A successful `parseSuper` returns the unit as it was, or with its last line
replaced. -/
theorem parseSuper_keeps (jf jf' : JavaFile) (toks : List GoString)
    (h : parseSuper jf toks = .ok jf') :
    jf' = jf ∨ ∃ init l l', jf.lines = init ++ [l] ∧ jf' = { jf with lines := init ++ [l'] } := by
  unfold parseSuper at h
  simp only [bind, Except.bind, pure, Except.pure] at h
  repeat' split at h
  all_goals first
    | (cases h; done)
    | (cases h; exact Or.inl rfl)
    | (cases h
       obtain ⟨init, l, h1, h2⟩ := setIndex_last_inv _ _ _ ‹setIndex _ _ _ = Except.ok _›
       exact Or.inr ⟨init, l, _, h1, by rw [h2]⟩)

/-- C13: when `convertLine` succeeds, a line without tokens leaves the unit as it
is; a line with tokens whose mnemonic is not `.super` appends exactly one line, so the
earlier lines stay, in order and unedited, as a prefix; and a `.super` line appends
nothing, keeps the number of lines, and can change only the last line. -/
theorem convertLine_append_only (jf jf' : JavaFile) (line : GoString)
    (h : convertLine jf line = .ok jf') :
    (strings.Fields line = [] → jf' = jf) ∧
    ((strings.Fields line).head? ≠ some (str ".super") → jf.lines <+: jf'.lines) ∧
    (strings.Fields line ≠ [] → (strings.Fields line).head? ≠ some (str ".super") →
      ∃ l, jf'.lines = jf.lines ++ [l]) ∧
    ((strings.Fields line).head? = some (str ".super") →
      jf'.lines.length = jf.lines.length ∧ jf'.lines.dropLast = jf.lines.dropLast) := by
  have hone : strings.Fields line ≠ [] → (strings.Fields line).head? ≠ some (str ".super") →
      ∃ l, jf'.lines = jf.lines ++ [l] := by
    intro hne hns
    cases hf : strings.Fields line with
    | nil => exact absurd hf hne
    | cons op rest =>
      have hop : op ≠ str ".super" := by
        intro e
        rw [hf, e] at hns
        exact hns rfl
      unfold convertLine at h
      simp only [hf, len_cons_ne_zero, if_false, index_zero_cons, bind, Except.bind, pure,
        Except.pure, hop] at h
      repeat' split at h
      all_goals first
        | (cases h; done)
        | (cases h; exact ⟨_, rfl⟩)
        | (obtain ⟨l, hl⟩ := parseMethod_appends _ _ _ h; exact ⟨l, by rw [hl]⟩)
        | (obtain ⟨l, hl⟩ := parseField_appends _ _ _ h; exact ⟨l, by rw [hl]⟩)
        | (obtain ⟨l, hl⟩ := finalString_appends _ _ _ h; exact ⟨l, by rw [hl]⟩)
        | (obtain ⟨l, hl⟩ := invokeStatic_appends _ _ _ h; exact ⟨l, by rw [hl]⟩)
        | (obtain ⟨l, hl⟩ := returnObject_appends _ _ _ h; exact ⟨_, by rw [hl]⟩)
  have hblank : strings.Fields line = [] → jf' = jf := by
    intro hf
    rw [convertLine_no_tokens jf line hf] at h
    cases h
    rfl
  refine ⟨hblank, ?_, hone, ?_⟩
  · intro hns
    by_cases hf : strings.Fields line = []
    · rw [hblank hf]
    · obtain ⟨l, hl⟩ := hone hf hns
      rw [hl]
      exact List.prefix_append _ _
  · intro hs
    cases hf : strings.Fields line with
    | nil => rw [hf] at hs; exact absurd hs (by simp)
    | cons op rest =>
      rw [hf] at hs
      have hop : op = str ".super" := by simpa using hs
      subst hop
      rw [dispatch_super jf line rest hf] at h
      rcases parseSuper_keeps jf jf' _ h with h1 | ⟨init, l, l', h1, h2⟩
      · rw [h1]
        exact ⟨rfl, rfl⟩
      · rw [h2, h1]
        simp

theorem convertLine_append_only_witness :
    (strings.Fields (str ".super La/b/D;") = [] →
      ({ lines := [⟨[str "public", str "class", str "C", str "extends", str "a.b.D"]⟩],
         className := str "C" } : JavaFile)
        = { lines := [⟨[str "public", str "class", str "C", str "\x7b"]⟩],
            className := str "C" }) ∧
    ((strings.Fields (str ".super La/b/D;")).head? ≠ some (str ".super") →
      [(⟨[str "public", str "class", str "C", str "\x7b"]⟩ : Line)]
        <+: [⟨[str "public", str "class", str "C", str "extends", str "a.b.D"]⟩]) ∧
    (strings.Fields (str ".super La/b/D;") ≠ [] →
      (strings.Fields (str ".super La/b/D;")).head? ≠ some (str ".super") →
      ∃ l, [(⟨[str "public", str "class", str "C", str "extends", str "a.b.D"]⟩ : Line)]
        = [⟨[str "public", str "class", str "C", str "\x7b"]⟩] ++ [l]) ∧
    ((strings.Fields (str ".super La/b/D;")).head? = some (str ".super") →
      [(⟨[str "public", str "class", str "C", str "extends", str "a.b.D"]⟩ : Line)].length
        = [(⟨[str "public", str "class", str "C", str "\x7b"]⟩ : Line)].length ∧
      [(⟨[str "public", str "class", str "C", str "extends", str "a.b.D"]⟩ : Line)].dropLast
        = [(⟨[str "public", str "class", str "C", str "\x7b"]⟩ : Line)].dropLast) :=
  convertLine_append_only
    { lines := [⟨[str "public", str "class", str "C", str "\x7b"]⟩], className := str "C" }
    { lines := [⟨[str "public", str "class", str "C", str "extends", str "a.b.D"]⟩],
      className := str "C" }
    (str ".super La/b/D;") (by decide)

theorem dispatch_default (jf : JavaFile) (line op : GoString) (rest : List GoString)
    (h : strings.Fields line = op :: rest) (hop : op ∉ mnemonics) :
    convertLine jf line = .ok { jf with lines := jf.lines ++ [⟨str "//" :: op :: rest⟩] } := by
  unfold convertLine
  simp only [mnemonics, List.mem_cons, List.mem_singleton, List.not_mem_nil, or_false,
    not_or] at hop
  obtain ⟨h1, h2, h3, h4, h5, h6, h7, h8, h9⟩ := hop
  simp only [h, len_cons_ne_zero, if_false, index_zero_cons, bind, Except.bind, h1, h2, h3, h4,
    h5, h6, h7, h8, h9]
  rfl

/-- After a successful `.class` line the last line of the unit has four tokens. -/
theorem class_last_line (jf0 jf : JavaFile) (line : GoString)
    (hop : (strings.Fields line).head? = some (str ".class"))
    (h : convertLine jf0 line = .ok jf) :
    ∃ a n, jf.lines = jf0.lines ++ [⟨[a, str "class", n, str "\x7b"]⟩] := by
  cases hf : strings.Fields line with
  | nil => rw [hf] at hop; exact absurd hop (by simp)
  | cons op rest =>
    rw [hf] at hop
    have e : op = str ".class" := by simpa using hop
    subst e
    rw [dispatch_class jf0 line rest hf] at h
    simp only [bind, Except.bind, pure, Except.pure] at h
    repeat' split at h
    all_goals first
      | (cases h; done)
      | (cases h; exact ⟨_, _, rfl⟩)

/-- After a successful `return-void`, `.end` or `return-object` line, and after a
passthrough of a one-token line, the last line of the unit has fewer than three
tokens. -/
theorem short_last_line (jf0 jf : JavaFile) (line : GoString)
    (h : convertLine jf0 line = .ok jf)
    (hop : (strings.Fields line).head? = some (str "return-void") ∨
      (strings.Fields line).head? = some (str ".end") ∨
      (strings.Fields line).head? = some (str "return-object") ∨
      ∃ tok, strings.Fields line = [tok] ∧ tok ∉ mnemonics) :
    ∃ l, jf.lines.getLast? = some l ∧ l.l.length < 3 := by
  cases hf : strings.Fields line with
  | nil =>
    rw [hf] at hop
    rcases hop with h1 | h1 | h1 | ⟨tok, h1, _⟩ <;> exact absurd h1 (by simp)
  | cons op rest =>
    rw [hf] at hop
    rcases hop with h1 | h1 | h1 | ⟨tok, h1, h2⟩
    · have e : op = str "return-void" := by simpa using h1
      subst e
      rw [dispatch_return_void jf0 line rest hf] at h
      cases h
      exact ⟨⟨[str "return;"]⟩, by simp, by decide⟩
    · have e : op = str ".end" := by simpa using h1
      subst e
      rw [dispatch_end jf0 line rest hf] at h
      cases h
      exact ⟨⟨[str "\x7d"]⟩, by simp, by decide⟩
    · have e : op = str "return-object" := by simpa using h1
      subst e
      rw [dispatch_return_object jf0 line rest hf] at h
      obtain ⟨v, hv⟩ := returnObject_appends _ _ _ h
      rw [hv]
      exact ⟨⟨[str "return ", v]⟩, by simp, by simp⟩
    · have e1 : op = tok := by
        have := congrArg List.head? h1
        simpa using this
      have e2 : rest = [] := by
        have := congrArg List.tail h1
        simpa using this
      subst e1 e2
      rw [dispatch_default jf0 line op [] hf h2] at h
      cases h
      exact ⟨⟨[str "//", op]⟩, by simp, by simp⟩

/-- C17: for a line `.super d` whose descriptor `d` decodes to a name other than
`Object`, `convertLine` panics with an index out of range exactly when the unit has
no lines or its last line has fewer than three tokens, and succeeds otherwise. It
panics right after a successful `return-void`, `.end`, `return-object` or one-token
passthrough, and it succeeds right after a successful `.class` line. -/
theorem super_panics_iff (jf : JavaFile) (d s : GoString) (hd : isToken d = true)
    (hs : getClassName d = .ok s) (hne : s ≠ str "Object") :
    (convertLine jf (str ".super " ++ d) = .error .indexOutOfRange ↔
      (jf.lines = [] ∨ ∃ l, jf.lines.getLast? = some l ∧ l.l.length < 3)) ∧
    (¬ (jf.lines = [] ∨ ∃ l, jf.lines.getLast? = some l ∧ l.l.length < 3) →
      ∃ jf', convertLine jf (str ".super " ++ d) = .ok jf') ∧
    (∀ jf0 line, convertLine jf0 line = .ok jf →
      ((strings.Fields line).head? = some (str "return-void") ∨
        (strings.Fields line).head? = some (str ".end") ∨
        (strings.Fields line).head? = some (str "return-object") ∨
        ∃ tok, strings.Fields line = [tok] ∧ tok ∉ mnemonics) →
      convertLine jf (str ".super " ++ d) = .error .indexOutOfRange) ∧
    (∀ jf0 line, convertLine jf0 line = .ok jf →
      (strings.Fields line).head? = some (str ".class") →
      ∃ jf', convertLine jf (str ".super " ++ d) = .ok jf') := by
  have e1 : str ".super " = str ".super" ++ str " " := by decide
  have hconv : convertLine jf (str ".super " ++ d) = parseSuper jf [str ".super", d] := by
    rw [e1, dispatch_super jf _ [d] (Fields_two _ d (by decide) hd)]
  obtain ⟨hfail, hok⟩ := parseSuper_cases jf (str ".super") d s [] hs hne
  rw [hconv]
  refine ⟨⟨?_, hfail⟩, hok, ?_, ?_⟩
  · intro herr
    by_contra hcon
    obtain ⟨jf', hjf⟩ := hok hcon
    rw [hjf] at herr
    exact absurd herr (by simp)
  · intro jf0 line hprev hop
    exact hfail (Or.inr (short_last_line jf0 jf line hprev hop))
  · intro jf0 line hprev hop
    obtain ⟨a, n, hl⟩ := class_last_line jf0 jf line hop hprev
    apply hok
    rintro (hnil | ⟨l, hlast, hshort⟩)
    · rw [hl] at hnil
      exact absurd hnil (by simp)
    · rw [hl] at hlast
      simp at hlast
      subst hlast
      simp at hshort

theorem super_panics_iff_witness :
    convertLine {} (str ".super " ++ str "La/b/D;") = .error .indexOutOfRange ∧
    convertLine { lines := [⟨[str "return;"]⟩] } (str ".super " ++ str "La/b/D;")
      = .error .indexOutOfRange ∧
    (∃ jf', convertLine { lines := [⟨[str "public", str "class", str "a.b.C", str "\x7b"]⟩] }
      (str ".super " ++ str "La/b/D;") = .ok jf') ∧
    str ".super " ++ str "La/b/D;" = str ".super La/b/D;" :=
  ⟨(super_panics_iff {} (str "La/b/D;") (str "a.b.D") (by decide) (by decide)
      (by decide)).1.mpr (Or.inl rfl),
    (super_panics_iff { lines := [⟨[str "return;"]⟩] } (str "La/b/D;") (str "a.b.D")
      (by decide) (by decide) (by decide)).1.mpr (Or.inr ⟨⟨[str "return;"]⟩, rfl, by decide⟩),
    (super_panics_iff
      { lines := [⟨[str "public", str "class", str "a.b.C", str "\x7b"]⟩] } (str "La/b/D;")
      (str "a.b.D") (by decide) (by decide) (by decide)).2.1 (by decide),
    by decide⟩

/-! ## `invoke-static` -/

theorem splitAux_two_cons (x y b : UInt8) (rest : GoString)
    (h : [x, y].isPrefixOf (b :: rest) = false) :
    strings.splitAux [x, y] 0 (b :: rest) =
      match strings.splitAux [x, y] 0 rest with
      | [] => [[b]]
      | p :: ps => (b :: p) :: ps := by
  rw [strings.splitAux, h]
  simp

/-- A piece free of the two-byte separator, followed by the separator, is split off
whole. -/
theorem split_two_append (x y : UInt8) (hxy : x ≠ y) (o rest : GoString)
    (ho : ¬ [x, y] <:+: o) :
    strings.Split (o ++ x :: y :: rest) [x, y] = o :: strings.Split rest [x, y] := by
  unfold strings.Split
  induction o with
  | nil =>
    rw [List.nil_append, strings.splitAux]
    simp [List.isPrefixOf, strings.splitAux]
  | cons b o ih =>
    have hrest : ¬ [x, y] <:+: o := fun e => ho (List.infix_cons e)
    have hp : [x, y].isPrefixOf (b :: (o ++ x :: y :: rest)) = false := by
      cases hq : [x, y].isPrefixOf (b :: (o ++ x :: y :: rest)) with
      | false => rfl
      | true =>
        exfalso
        cases o with
        | nil =>
          simp [List.isPrefixOf] at hq
          exact hxy hq.2.symm
        | cons c o' =>
          simp [List.isPrefixOf] at hq
          apply ho
          rw [hq.1, hq.2]
          exact (List.prefix_append [b, c] o').isInfix
    rw [List.cons_append, splitAux_two_cons x y b _ hp, ih hrest]

/-- The first piece of a split keeps everything up to a byte that is not part of the
separator, when no separator starts before it. -/
theorem split_two_head (x y c : UInt8) (hcx : c ≠ x) (hcy : c ≠ y) (m t : GoString)
    (hm : ¬ [x, y] <:+: m) :
    ∃ u ps, strings.Split (m ++ c :: t) [x, y] = (m ++ c :: u) :: ps := by
  unfold strings.Split
  induction m with
  | nil =>
    have hp : [x, y].isPrefixOf (c :: t) = false := by
      cases hq : [x, y].isPrefixOf (c :: t) with
      | false => rfl
      | true =>
        simp [List.isPrefixOf] at hq
        exact absurd hq.1.symm hcx
    rw [List.nil_append, splitAux_two_cons x y c t hp]
    cases hq : strings.splitAux [x, y] 0 t with
    | nil => exact absurd hq (splitAux_ne_nil _ _ _)
    | cons p ps => exact ⟨p, ps, rfl⟩
  | cons b m ih =>
    have hrest : ¬ [x, y] <:+: m := fun e => hm (List.infix_cons e)
    have hp : [x, y].isPrefixOf (b :: (m ++ c :: t)) = false := by
      cases hq : [x, y].isPrefixOf (b :: (m ++ c :: t)) with
      | false => rfl
      | true =>
        exfalso
        cases m with
        | nil =>
          simp [List.isPrefixOf] at hq
          exact hcy hq.2.symm
        | cons c' m' =>
          simp [List.isPrefixOf] at hq
          apply hm
          rw [hq.1, hq.2]
          exact (List.prefix_append [b, c'] m').isInfix
    obtain ⟨u, ps, hu⟩ := ih hrest
    rw [List.cons_append, splitAux_two_cons x y b _ hp, hu]
    exact ⟨u, ps, rfl⟩

theorem fieldsAux_open (s cur : GoString) (hcur : cur ≠ []) :
    ∃ s' tl, strings.fieldsAux 0 cur s = (cur ++ s') :: tl := by
  induction s generalizing cur with
  | nil => exact ⟨[], [], by simp [strings.fieldsAux, hcur]⟩
  | cons b rest ih =>
    rw [strings.fieldsAux]
    cases hw : strings.spaceWidth (b :: rest) with
    | zero =>
      obtain ⟨s', tl, h⟩ := ih (cur ++ [b]) (by simp)
      exact ⟨b :: s', tl, by simpa using h⟩
    | succ w => exact ⟨[], strings.fieldsAux w [] rest, by simp [hcur]⟩

/-- The first field of a text that starts with a white-space-free part followed by a
non-space ASCII byte extends that part. -/
theorem fieldsAux_prefix (pre t cur : GoString) (c : UInt8) (hc : c < 0x80)
    (hns : c ∉ ([0x09, 0x0A, 0x0B, 0x0C, 0x0D, 0x20] : List UInt8))
    (hpre : hasSpace pre = false) :
    ∃ t' tl, strings.fieldsAux 0 cur (pre ++ c :: t) = (cur ++ pre ++ c :: t') :: tl := by
  induction pre generalizing cur with
  | nil =>
    rw [List.nil_append, strings.fieldsAux, spaceWidth_ascii c t hc hns]
    obtain ⟨s', tl, h⟩ := fieldsAux_open t (cur ++ [c]) (by simp)
    exact ⟨s', tl, by simpa using h⟩
  | cons b pre ih =>
    have h := hasSpace_cons b pre hpre
    have hw := spaceWidth_append_ascii b c pre t hc h.1
    simp only [List.cons_append] at hw ⊢
    rw [strings.fieldsAux, hw]
    obtain ⟨t', tl, h'⟩ := ih (cur ++ [b]) h.2
    exact ⟨t', tl, by simpa using h'⟩

/-- C12: for an argument text `x`, an owner descriptor `o` and a method name `m`, all
free of white space, with `o` and `m` free of `->`, `m` free of `(`, and `o` decoded by
`getClassName` to `n`, the line `invoke-static {x}, o->m(t` appends, for every
descriptor tail `t`, exactly the line with tokens `n`, `.`, `m`, `(`, `x`, `);`,
rendered `n . m ( x );`. -/
theorem convertLine_invoke_static (jf : JavaFile) (x o m t n : GoString)
    (hx : hasSpace x = false) (ho : hasSpace o = false) (hoa : ¬ str "->" <:+: o)
    (hn : getClassName o = .ok n) (hm : hasSpace m = false) (hmo : '('.toUInt8 ∉ m)
    (hma : ¬ str "->" <:+: m) :
    convertLine jf (str "invoke-static " ++ (str "\x7b" ++ x ++ str "\x7d,") ++ str " "
        ++ (o ++ str "->" ++ m ++ str "(" ++ t))
      = .ok { jf with lines := jf.lines ++
          [⟨[n, str ".", m, str "(", x, str ");"]⟩] } ∧
    render ⟨[n, str ".", m, str "(", x, str ");"]⟩
      = n ++ str " . " ++ m ++ str " ( " ++ x ++ str " );" := by
  have earrow : str "->" = ['-'.toUInt8, '>'.toUInt8] := by decide
  have eopen : str "(" = ['('.toUInt8] := by decide
  have ebrace : str "\x7b" = ['\x7b'.toUInt8] := by decide
  have eclose : str "\x7d," = ['\x7d'.toUInt8, ','.toUInt8] := by decide
  rw [earrow] at hoa hma
  constructor
  · -- the two operands
    have htok1 : isToken (str "\x7b" ++ x ++ str "\x7d,") = true := by
      rw [isToken_iff, ebrace, eclose]
      refine ⟨by simp, ?_⟩
      have h1 : hasSpace (x ++ '\x7d'.toUInt8 :: [','.toUInt8]) = false :=
        hasSpace_append_ascii x _ _ (by decide) (by decide) hx (by decide)
      have h2 := hasSpace_append_ascii [] _ '\x7b'.toUInt8 (by decide) (by decide) rfl h1
      simpa [List.append_assoc] using h2
    have hpre : hasSpace (o ++ '-'.toUInt8 :: '>'.toUInt8 :: m) = false := by
      have h1 : hasSpace ('>'.toUInt8 :: m) = false :=
        hasSpace_append_ascii [] m _ (by decide) (by decide) rfl hm
      exact hasSpace_append_ascii o _ _ (by decide) (by decide) ho h1
    have hR : o ++ str "->" ++ m ++ str "(" ++ t
        = (o ++ '-'.toUInt8 :: '>'.toUInt8 :: m) ++ '('.toUInt8 :: t := by
      simp [earrow, eopen, List.append_assoc]
    obtain ⟨t', tl, hfields⟩ := fieldsAux_prefix (o ++ '-'.toUInt8 :: '>'.toUInt8 :: m) t []
      '('.toUInt8 (by decide) (by decide) hpre
    have hF : strings.Fields (str "invoke-static " ++ (str "\x7b" ++ x ++ str "\x7d,") ++ str " "
        ++ (o ++ str "->" ++ m ++ str "(" ++ t))
        = str "invoke-static" :: (str "\x7b" ++ x ++ str "\x7d,")
          :: ((o ++ '-'.toUInt8 :: '>'.toUInt8 :: m) ++ '('.toUInt8 :: t') :: tl := by
      have e0 : str "invoke-static " = str "invoke-static" ++ str " " := by decide
      have e : str "invoke-static" ++ str " " ++ (str "\x7b" ++ x ++ str "\x7d,") ++ str " "
            ++ (o ++ str "->" ++ m ++ str "(" ++ t)
          = str "invoke-static" ++ str " " ++ ((str "\x7b" ++ x ++ str "\x7d,") ++ str " "
            ++ (o ++ str "->" ++ m ++ str "(" ++ t)) := by
        simp only [List.append_assoc]
      rw [e0, e, Fields_token_space _ _ (by decide), Fields_token_space _ _ htok1, hR]
      unfold strings.Fields
      rw [hfields]
      simp
    -- the slice of operand 1
    have hslice : slice (str "\x7b" ++ x ++ str "\x7d,") 1 (len (str "\x7b" ++ x ++ str "\x7d,") - 2)
        = .ok x := by
      have := slice_middle (str "\x7b") x (str "\x7d,")
      have h1 : len (str "\x7b") = 1 := by decide
      have h2 : len (str "\x7d,") = 2 := by decide
      rw [h1, h2] at this
      exact this
    -- the splits of operand 2
    obtain ⟨u, ps, hhead⟩ := split_two_head '-'.toUInt8 '>'.toUInt8 '('.toUInt8 (by decide)
      (by decide) m t' hma
    have hsplit : strings.Split ((o ++ '-'.toUInt8 :: '>'.toUInt8 :: m) ++ '('.toUInt8 :: t')
        (str "->") = o :: (m ++ '('.toUInt8 :: u) :: ps := by
      have e : (o ++ '-'.toUInt8 :: '>'.toUInt8 :: m) ++ '('.toUInt8 :: t'
          = o ++ '-'.toUInt8 :: '>'.toUInt8 :: (m ++ '('.toUInt8 :: t') := by
        simp [List.append_assoc]
      rw [e, earrow, split_two_append _ _ (by decide) o _ hoa, hhead]
    have hname : index (strings.Split (m ++ '('.toUInt8 :: u) (str "(")) 0 = .ok m := by
      rw [eopen, split_byte_append _ _ _ hmo]
      exact index_zero_cons _ _
    rw [dispatch_invoke_static jf _ _ hF]
    unfold invokeStatic
    simp only [bind, Except.bind, pure, Except.pure, index_one_cons, index_two_cons, hslice,
      hsplit, index_zero_cons, hname, hn]
  · have e1 : str " . " = str " " ++ str "." ++ str " " := by decide
    have e2 : str " ( " = str " " ++ str "(" ++ str " " := by decide
    have e3 : str " );" = str " " ++ str ");" := by decide
    simp only [render, strings.Join, e1, e2, e3, List.append_assoc]

theorem convertLine_invoke_static_witness :
    str "invoke-static " ++ (str "\x7b" ++ str "p0" ++ str "\x7d,") ++ str " "
        ++ (str "Lcom/checker/HttpRequest;" ++ str "->" ++ str "post" ++ str "("
          ++ str "Ljava/lang/CharSequence;)Lcom/checker/HttpRequest;")
      = str ("invoke-static \x7bp0\x7d, Lcom/checker/HttpRequest;->"
          ++ "post(Ljava/lang/CharSequence;)Lcom/checker/HttpRequest;") ∧
    str "com.checker.HttpRequest" ++ str " . " ++ str "post" ++ str " ( " ++ str "p0" ++ str " );"
      = str "com.checker.HttpRequest . post ( p0 );" ∧
    (convertLine {} (str "invoke-static " ++ (str "\x7b" ++ str "p0" ++ str "\x7d,") ++ str " "
        ++ (str "Lcom/checker/HttpRequest;" ++ str "->" ++ str "post" ++ str "("
          ++ str "Ljava/lang/CharSequence;)Lcom/checker/HttpRequest;"))
      = .ok { lines := [⟨[str "com.checker.HttpRequest", str ".", str "post", str "(", str "p0",
          str ");"]⟩] } ∧
    render ⟨[str "com.checker.HttpRequest", str ".", str "post", str "(", str "p0", str ");"]⟩
      = str "com.checker.HttpRequest" ++ str " . " ++ str "post" ++ str " ( " ++ str "p0"
          ++ str " );") :=
  ⟨by decide, by decide,
    convertLine_invoke_static {} (str "p0") (str "Lcom/checker/HttpRequest;") (str "post")
      (str "Ljava/lang/CharSequence;)Lcom/checker/HttpRequest;") (str "com.checker.HttpRequest")
      (by decide) (by decide) (by decide) (by decide) (by decide) (by decide) (by decide)⟩

end Smali2Java
